import Mathlib

/-!
Verification of the forsaken-mail-rust specification against a shallow
embedding of the source.  Strings are modelled as lists of characters
(`Str`), timestamps as integers, and the store's hash map as a total
function from mailbox keys to buckets (the empty bucket standing for an
absent key).  Every definition mirrors the Rust function of the same
name; the file/line of the source is noted on each definition.
-/

/-- Character strings, modelled as lists of characters.  All the data
handled by the program is ASCII, for which Rust byte/char distinctions
coincide. -/
abbrev Str := List Char

/-- `char::is_whitespace` (Unicode `White_Space`), the predicate used by
Rust's `str::trim` and `split_whitespace`. -/
def isWS (c : Char) : Bool :=
  c.toNat ∈ [9, 10, 11, 12, 13, 32, 0x85, 0xA0, 0x1680,
    0x2000, 0x2001, 0x2002, 0x2003, 0x2004, 0x2005, 0x2006, 0x2007,
    0x2008, 0x2009, 0x200A, 0x2028, 0x2029, 0x202F, 0x205F, 0x3000]

/-- `u8::to_ascii_lowercase` / per-char case fold: `'A'..='Z'` maps to
`'a'..='z'`, everything else is unchanged. -/
def asciiLowerChar (c : Char) : Char :=
  if 65 ≤ c.toNat ∧ c.toNat ≤ 90 then Char.ofNat (c.toNat + 32) else c

/-- `u8::to_ascii_uppercase`: `'a'..='z'` maps to `'A'..='Z'`. -/
def asciiUpperChar (c : Char) : Char :=
  if 97 ≤ c.toNat ∧ c.toNat ≤ 122 then Char.ofNat (c.toNat - 32) else c

/-- `str::to_ascii_lowercase`. -/
def toAsciiLower (s : Str) : Str := s.map asciiLowerChar

/-- `str::to_ascii_uppercase`. -/
def toAsciiUpper (s : Str) : Str := s.map asciiUpperChar

/-- `str::trim`: remove leading and trailing whitespace. -/
def rustTrim (s : Str) : Str :=
  ((s.dropWhile isWS).reverse.dropWhile isWS).reverse

/-- `str::trim_start_matches c`: remove every leading occurrence of `c`. -/
def trimStartMatches (c : Char) (s : Str) : Str := s.dropWhile (· = c)

/-- `str::trim_end_matches c`: remove every trailing occurrence of `c`. -/
def trimEndMatches (c : Char) (s : Str) : Str :=
  (s.reverse.dropWhile (· = c)).reverse

/-- `str::rfind('@')`: index of the last occurrence of `'@'`. -/
def rfindAt : Str → Option Nat
  | [] => none
  | c :: rest =>
    match rfindAt rest with
    | some i => some (i + 1)
    | none => if c = '@' then some 0 else none

/-- `str::eq_ignore_ascii_case`. -/
def eqIgnoreAsciiCase (a b : Str) : Bool := toAsciiLower a == toAsciiLower b

/-- First whitespace-delimited token, as produced by
`split_whitespace().next().unwrap_or_default()`. -/
def firstToken (s : Str) : Str := (s.dropWhile isWS).takeWhile (fun c => ¬ isWS c)

/-! ## `src/address.rs` -/

/-- `[a-z0-9]` (`src/address.rs:5`, first character class of the mailbox
regex `^[a-z0-9][a-z0-9._+\-]{0,63}$`). -/
def isLowerAlnum (c : Char) : Bool :=
  (97 ≤ c.toNat && c.toNat ≤ 122) || (48 ≤ c.toNat && c.toNat ≤ 57)

/-- `[a-z0-9._+\-]`, the tail character class of the mailbox regex. -/
def isMailboxTail (c : Char) : Bool :=
  isLowerAlnum c || c = '.' || c = '_' || c = '+' || c = '-'

/-- `MAILBOX_PATTERN.is_match` (`src/address.rs:4-5`): the anchored regex
`^[a-z0-9][a-z0-9._+\-]{0,63}$`. -/
def mailboxPattern : Str → Bool
  | [] => false
  | c :: rest => isLowerAlnum c && rest.length ≤ 63 && rest.all isMailboxTail

/-- `validate_mailbox` (`src/address.rs:49-54`). -/
def validate_mailbox (mailbox : Str) : Except Str Unit :=
  if mailboxPattern mailbox then .ok () else .error "invalid mailbox".data

/-- `normalize` (`src/address.rs:56-62`): trim whitespace, then strip
leading `<` runs and trailing `>` runs. -/
def normalizeAddr (input : Str) : Str :=
  trimEndMatches '>' (trimStartMatches '<' (rustTrim input))

/-- `parse_email` (`src/address.rs:7-25`). -/
def parse_email (input : Str) : Except Str (Str × Str) :=
  let value := normalizeAddr input
  match rfindAt value with
  | none => .error "invalid email address".data
  | some i =>
    if i = 0 ∨ i = value.length - 1 then .error "invalid email address".data
    else
      let mailbox := toAsciiLower (rustTrim (value.take i))
      let domain := toAsciiLower (rustTrim (value.drop (i + 1)))
      if mailboxPattern mailbox then
        if domain = [] then .error "invalid email domain".data
        else .ok (mailbox, domain)
      else .error "invalid mailbox".data

/-- `normalize_mailbox` (`src/address.rs:27-47`). -/
def normalize_mailbox (input expectedDomain : Str) : Except Str (Str × Str) :=
  let value := normalizeAddr input
  let expected := toAsciiLower (rustTrim expectedDomain)
  if value.contains '@' then
    match parse_email value with
    | .error e => .error e
    | .ok (mailbox, domain) =>
      if expected ≠ [] ∧ domain ≠ expected then
        .error ("email domain must be ".data ++ expected)
      else .ok (mailbox, mailbox ++ '@' :: domain)
  else
    let mailbox := toAsciiLower (rustTrim value)
    if mailboxPattern mailbox then
      if expected = [] then .ok (mailbox, mailbox)
      else .ok (mailbox, mailbox ++ '@' :: expected)
    else .error "invalid mailbox".data

/-- Decidable equality for `Except`, used to evaluate the embedded
fallible operations on concrete inputs. -/
instance {ε α : Type} [DecidableEq ε] [DecidableEq α] : DecidableEq (Except ε α)
  | .error a, .error b =>
    if h : a = b then .isTrue (by rw [h]) else .isFalse (by intro he; cases he; exact h rfl)
  | .error _, .ok _ => .isFalse (by intro h; cases h)
  | .ok _, .error _ => .isFalse (by intro h; cases h)
  | .ok a, .ok b =>
    if h : a = b then .isTrue (by rw [h]) else .isFalse (by intro he; cases he; exact h rfl)

example : parse_email "  <Bob@Example.ORG> ".data = .ok ("bob".data, "example.org".data) := by decide
example : normalize_mailbox "alice".data "ex.org".data = .ok ("alice".data, "alice@ex.org".data) := by decide
example : normalize_mailbox "a@b".data "".data = .ok ("a".data, "a@b".data) := by decide
example : normalize_mailbox "a@b".data "c".data = .error ("email domain must be c".data) := by decide

/-! ## `src/store.rs` -/

/-- The retained unit (`Message`, `src/store.rs:10-25`), restricted to the
fields that the store operations inspect or rewrite (`id`, `mailbox`,
`date`, `received_at`); the remaining fields (`to`, `from`, `subject`,
`text`, `html`, `headers`) are opaque payload never read by the store.
Timestamps are integers (`DateTime<Utc>::timestamp`). -/
structure Msg where
  id : Str
  mailbox : Str
  date : Int
  received_at : Int
deriving DecidableEq, Repr

/-- `StoreEventType` (`src/store.rs:38-44`). -/
inductive StoreEventType
  | added
  | deleted
  | cleared
deriving DecidableEq, Repr

/-- `StoreEvent` (`src/store.rs:46-53`).  The source field `at` is a
reserved word in Lean and is rendered `at_`. -/
structure StoreEvent where
  event : StoreEventType
  mailbox : Str
  message_id : Option Str
  at_ : Int
deriving DecidableEq, Repr

/-- `StoreInner.by_mailbox : HashMap<String, Vec<Message>>`
(`src/store.rs:55-58`), modelled as a total function where the empty
bucket stands for an absent key (the code never retains an empty
bucket, so the two states are observationally equal). -/
abbrev MapM := Str → List Msg

/-- The two retention bounds of `Store` (`src/store.rs:60-66`):
`max_messages` and `ttl` (the `Duration` as an integer number of the
same time units as the timestamps). -/
structure StoreCfg where
  max_messages : Nat
  ttl : Int
deriving DecidableEq, Repr

/-- Mailbox-key normalization `mailbox.trim().to_ascii_lowercase()`
performed by every store operation (`src/store.rs:81,117,136,177,213`). -/
def normKey (s : Str) : Str := toAsciiLower (rustTrim s)

/-- `prune_mailbox` (`src/store.rs:254-277`): drop items older than
`now - ttl`, then drop the oldest items beyond `max_messages`.  (The
removal/re-insertion of the hash-map key is the identity in the
total-function model.) -/
def prune_mailbox (bucket : List Msg) (now ttl : Int) (max_messages : Nat) : List Msg :=
  let cutoff := now - ttl
  let kept := bucket.filter (fun item => cutoff ≤ item.received_at)
  if max_messages < kept.length then kept.drop (kept.length - max_messages) else kept

/-- The normalization `add` applies to the incoming message
(`src/store.rs:83-91`): default `received_at` to `now`, default `date`
to `received_at`, default the `mailbox` field to the bucket key. -/
def admitMsg (message : Msg) (mb : Str) (now : Int) : Msg :=
  let message := if message.received_at = 0 then { message with received_at := now } else message
  let message := if message.date = 0 then { message with date := message.received_at } else message
  if message.mailbox = [] then { message with mailbox := mb } else message

/-- `Store::add` (`src/store.rs:79-114`); returns the new map and the
published `Added` event. -/
def Store.add (cfg : StoreCfg) (σ : MapM) (mailbox : Str) (message : Msg) (now : Int) :
    MapM × StoreEvent :=
  let mb := normKey mailbox
  let message := admitMsg message mb now
  let bucket := prune_mailbox (σ mb ++ [message]) now cfg.ttl cfg.max_messages
  (Function.update σ mb bucket, ⟨.added, mb, some message.id, now⟩)

/-- `Store::list` (`src/store.rs:116-133`): prune, then return the bucket
reversed (newest first). -/
def Store.list (cfg : StoreCfg) (σ : MapM) (mailbox : Str) (now : Int) :
    MapM × List Msg :=
  let mb := normKey mailbox
  let bucket := prune_mailbox (σ mb) now cfg.ttl cfg.max_messages
  (Function.update σ mb bucket, bucket.reverse)

/-- `Store::get` (`src/store.rs:135-152`): prune, then search the bucket
newest-to-oldest for the (untrimmed) id. -/
def Store.get (cfg : StoreCfg) (σ : MapM) (mailbox mid : Str) (now : Int) :
    MapM × Option Msg :=
  let mb := normKey mailbox
  let bucket := prune_mailbox (σ mb) now cfg.ttl cfg.max_messages
  (Function.update σ mb bucket, bucket.reverse.find? (fun item => item.id = mid))

/-- `Store::delete` (`src/store.rs:176-210`): trim the id, refuse blank
ids, remove every message with that id, publish `Deleted` only when
something was removed.  Returns (new map, deleted?, published event). -/
def Store.delete (σ : MapM) (mailbox mid : Str) (now : Int) :
    MapM × Bool × Option StoreEvent :=
  let mb := normKey mailbox
  let idT := rustTrim mid
  if idT = [] then (σ, false, none)
  else
    let bucket := σ mb
    let kept := bucket.filter (fun item => item.id ≠ idT)
    if kept.length = bucket.length then (σ, false, none)
    else (Function.update σ mb kept, true, some ⟨.deleted, mb, some idT, now⟩)

/-- `Store::clear` (`src/store.rs:212-228`): drop the bucket, publish
`Cleared` only when it was non-empty.  Returns (new map, removed count,
published event). -/
def Store.clear (σ : MapM) (mailbox : Str) (now : Int) :
    MapM × Nat × Option StoreEvent :=
  let mb := normKey mailbox
  let removed := (σ mb).length
  (Function.update σ mb [],
   removed,
   if 0 < removed then some ⟨.cleared, mb, none, now⟩ else none)

/-- `Store::cleanup_expired` (`src/store.rs:154-174`): prune every listed
bucket.  The key list is passed explicitly (the code iterates the hash
map's current keys; the model accepts any key list, which subsumes it). -/
def Store.cleanup (cfg : StoreCfg) (σ : MapM) (keys : List Str) (now : Int) : MapM :=
  keys.foldl
    (fun acc mb => Function.update acc mb (prune_mailbox (acc mb) now cfg.ttl cfg.max_messages))
    σ

/-- One public store operation together with the wall-clock instant at
which it runs. -/
inductive StoreOp
  | add (mailbox : Str) (message : Msg) (now : Int)
  | list (mailbox : Str) (now : Int)
  | get (mailbox mid : Str) (now : Int)
  | delete (mailbox mid : Str) (now : Int)
  | clear (mailbox : Str) (now : Int)
  | cleanup (keys : List Str) (now : Int)
deriving Repr

/-- State transition of a single store operation (outputs discarded). -/
def runOp (cfg : StoreCfg) (σ : MapM) : StoreOp → MapM
  | .add mailbox message now => (Store.add cfg σ mailbox message now).1
  | .list mailbox now => (Store.list cfg σ mailbox now).1
  | .get mailbox mid now => (Store.get cfg σ mailbox mid now).1
  | .delete mailbox mid now => (Store.delete σ mailbox mid now).1
  | .clear mailbox now => (Store.clear σ mailbox now).1
  | .cleanup keys now => Store.cleanup cfg σ keys now

/-- Run a sequence of store operations from a given state. -/
def execOps (cfg : StoreCfg) (σ : MapM) : List StoreOp → MapM
  | [] => σ
  | op :: rest => execOps cfg (runOp cfg σ op) rest

/-- The store map with no buckets. -/
def emptyMap : MapM := fun _ => []

/-! ## `src/smtp_server.rs` -/

/-- `Recipient` (`src/smtp_server.rs:15-19`). -/
structure Recipient where
  mailbox : Str
  address : Str
deriving DecidableEq, Repr

/-- `Transaction` (`src/smtp_server.rs:21-25`).  The source field `from`
is a reserved word in Lean and is rendered `fromAddr`. -/
structure Transaction where
  fromAddr : Str
  recipients : List Recipient
deriving DecidableEq, Repr

/-- `Transaction::reset` (`src/smtp_server.rs:27-32`). -/
def Transaction.reset (_tx : Transaction) : Transaction :=
  { fromAddr := [], recipients := [] }

/-- The configuration fields consulted by the SMTP command handlers
(`Config`, `src/config.rs:16-26`); the `HashSet`s are modelled as lists
queried by membership. -/
structure Config where
  domain : Str
  mailbox_blacklist : List Str
  banned_sender_domains : List Str
  max_message_bytes : Nat
deriving DecidableEq, Repr

/-- `Config::is_sender_domain_blocked` (`src/config.rs:63-66`). -/
def Config.is_sender_domain_blocked (cfg : Config) (domain : Str) : Bool :=
  cfg.banned_sender_domains.contains (toAsciiLower (rustTrim domain))

/-- `Config::is_mailbox_blacklisted` (`src/config.rs:58-61`). -/
def Config.is_mailbox_blacklisted (cfg : Config) (mailbox : Str) : Bool :=
  cfg.mailbox_blacklist.contains (toAsciiLower (rustTrim mailbox))

/-- `extract_smtp_address` (`src/smtp_server.rs:289-314`): check the
case-insensitive command word (`FROM:` / `TO:`), then take either the
bracketed address or the first whitespace-delimited token. -/
def extract_smtp_address (arg pfx : Str) : Except Str Str :=
  if List.isPrefixOf pfx (toAsciiUpper arg) then
    let raw := rustTrim (arg.drop pfx.length)
    match raw with
    | [] => .error "invalid smtp path".data
    | '<' :: rest =>
      match rest.findIdx? (· = '>') with
      | none => .error "invalid smtp path".data
      | some i => .ok (rustTrim (rest.take i))
    | _ => .ok (rustTrim (firstToken raw))
  else .error "invalid smtp path".data

/-- `handle_mail_from` (`src/smtp_server.rs:212-229`); returns the SMTP
reply outcome together with the transaction state after the command. -/
def handle_mail_from (cfg : Config) (tx : Transaction) (arg : Str) :
    Except (Nat × Str) Unit × Transaction :=
  match extract_smtp_address arg "FROM:".data with
  | .error msg => (.error (550, msg), tx)
  | .ok fromA =>
    let tx := { tx with recipients := [] }
    if fromA = [] then (.ok (), { tx with fromAddr := [] })
    else
      match parse_email fromA with
      | .error _ => (.error (550, "invalid sender address".data), tx)
      | .ok (_, domain) =>
        if cfg.is_sender_domain_blocked domain then
          (.error (530, "sender domain is blocked".data), tx)
        else (.ok (), { tx with fromAddr := toAsciiLower fromA })

/-- `handle_rcpt_to` (`src/smtp_server.rs:231-245`). -/
def handle_rcpt_to (cfg : Config) (tx : Transaction) (arg : Str) :
    Except (Nat × Str) Unit × Transaction :=
  match extract_smtp_address arg "TO:".data with
  | .error msg => (.error (550, msg), tx)
  | .ok toA =>
    match normalize_mailbox toA cfg.domain with
    | .error msg => (.error (550, msg), tx)
    | .ok (mailbox, email_address) =>
      if cfg.is_mailbox_blacklisted mailbox then
        (.error (550, "mailbox is blocked".data), tx)
      else
        (.ok (), { tx with recipients := tx.recipients ++ [⟨mailbox, email_address⟩] })

/-- The three DATA terminator lines of `read_data_block`
(`src/smtp_server.rs:264`). -/
def isTermLine (line : Str) : Bool :=
  line == ".\r\n".data || line == ".\n".data || line == ".".data

/-- Dot-stuffing decode of one line (`src/smtp_server.rs:268-271`):
remove the first byte when the line starts with `..`. -/
def destuff (line : Str) : Str :=
  if line.take 2 = ['.', '.'] then line.drop 1 else line

/-- The accumulation loop of `read_data_block`
(`src/smtp_server.rs:254-277`), over the remaining input lines (each as
delivered by `read_line`, terminator included) and the buffer so far.
An exhausted input stands for a read that returns 0 bytes (EOF). -/
def readDataGo (maxBytes : Nat) : List Str → Str → Except (Nat × Str) Str
  | [], _ => .error (451, "message terminated unexpectedly".data)
  | line :: rest, raw =>
    if isTermLine line then .ok raw
    else
      let raw := raw ++ destuff line
      if maxBytes < raw.length then .error (552, "message too large".data)
      else readDataGo maxBytes rest raw

/-- `read_data_block` (`src/smtp_server.rs:247-280`). -/
def read_data_block (lines : List Str) (maxBytes : Nat) : Except (Nat × Str) Str :=
  readDataGo maxBytes lines []

/-- The DATA-mode body collection step of `handle_connection`
(`src/smtp_server.rs:143,183-191`): on a `read_data_block` failure the
transaction is reset and the error reply is written; on success the raw
body goes on to parsing with the transaction still intact. -/
def data_block_step (tx : Transaction) (lines : List Str) (maxBytes : Nat) :
    Except ((Nat × Str) × Transaction) (Str × Transaction) :=
  match read_data_block lines maxBytes with
  | .ok raw => .ok (raw, tx)
  | .error e => .error (e, tx.reset)

/-! ## `src/mail_parser.rs` -/

/-- One step of the header-collection loop
(`out.entry(key).or_default().push(value)`, `src/mail_parser.rs:74`):
append the value under an existing key, or add a fresh entry. -/
def insertHeader (acc : List (Str × List Str)) (k : Str) (v : Str) :
    List (Str × List Str) :=
  match acc with
  | [] => [(k, [v])]
  | (k', vs) :: rest =>
    if k' = k then (k', vs ++ [v]) :: rest else (k', vs) :: insertHeader rest k v

/-- The loop of `extract_headers` over the raw `(key, value)` header
pairs in message order. -/
def extractHeadersGo (acc : List (Str × List Str)) :
    List (Str × Str) → List (Str × List Str)
  | [] => acc
  | (k, v) :: rest => extractHeadersGo (insertHeader acc k v) rest

/-- `extract_headers` (`src/mail_parser.rs:69-77`): the entries of the
resulting `HashMap<String, Vec<String>>`.  The list is one concrete
enumeration of the map (keyed by first appearance); the Rust `HashMap`
iterates the same entries in an unspecified order, which is why
`find_first_header` below takes the enumeration as an argument. -/
def extract_headers (hs : List (Str × Str)) : List (Str × List Str) :=
  extractHeadersGo [] hs

/-- `find_first_header` (`src/mail_parser.rs:79-87`), written over an
explicit enumeration `entries` of the header map: any permutation of
`extract_headers hs` is an admissible `HashMap` iteration order. -/
def find_first_header (entries : List (Str × List Str)) (key : Str) : Option Str :=
  entries.findSome? fun e =>
    if eqIgnoreAsciiCase e.1 key then e.2.head? else none

/-- Association-list lookup against the exact (case-preserved) key; the
`HashMap` lookup semantics of the entry list. -/
def lookupA (entries : List (Str × List Str)) (k : Str) : List Str :=
  match entries with
  | [] => []
  | (k', vs) :: rest => if k' = k then vs else lookupA rest k

/-! ## `src/http_api.rs` -/

/-- What a single `receiver.recv()` of the long-poll loop can yield
(`src/http_api.rs:236-247`): an event, a lag signal, or channel
closure. -/
inductive RecvItem
  | ev (e : StoreEvent)
  | lag
  | closed
deriving DecidableEq, Repr

/-- Outcome of the `events/next` endpoint. -/
inductive HttpOutcome
  | ok (e : StoreEvent)
  | noContent
  | serviceUnavailable
deriving DecidableEq, Repr

/-- The long-poll loop of `next_mailbox_event` (`src/http_api.rs:235-248`)
over the subscriber's incoming signal trace.  Each trace element carries
the time (in seconds) from the start of that iteration's `recv` to the
signal's arrival; an exhausted trace means no further signal ever
arrives, so the pending 25-second `timeout` fires.  Note the `timeout`
is re-armed at every loop iteration. -/
def next_mailbox_event (mb : Str) : List (Int × RecvItem) → HttpOutcome
  | [] => .noContent
  | (d, item) :: rest =>
    if 25 < d then .noContent
    else
      match item with
      | .ev e => if e.mailbox = mb then .ok e else next_mailbox_event mb rest
      | .lag => next_mailbox_event mb rest
      | .closed => .serviceUnavailable

/-! ## Helper lemmas: character classes and trimming -/

theorem isMailboxTail_bounds (c : Char) (h : isMailboxTail c = true) :
    (97 ≤ c.toNat ∧ c.toNat ≤ 122) ∨ (48 ≤ c.toNat ∧ c.toNat ≤ 57) ∨
      c.toNat = 46 ∨ c.toNat = 95 ∨ c.toNat = 43 ∨ c.toNat = 45 := by
  unfold isMailboxTail isLowerAlnum at h
  simp only [Bool.or_eq_true, Bool.and_eq_true, decide_eq_true_eq] at h
  rcases h with ((((h | h) | h) | h) | h) | h
  · exact Or.inl h
  · exact Or.inr (Or.inl h)
  · subst h; decide
  · subst h; decide
  · subst h; decide
  · subst h; decide

theorem isMailboxTail_not_ws (c : Char) (h : isMailboxTail c = true) : isWS c = false := by
  have hb := isMailboxTail_bounds c h
  have : ¬ (c.toNat ∈ [9, 10, 11, 12, 13, 32, 0x85, 0xA0, 0x1680,
      0x2000, 0x2001, 0x2002, 0x2003, 0x2004, 0x2005, 0x2006, 0x2007,
      0x2008, 0x2009, 0x200A, 0x2028, 0x2029, 0x202F, 0x205F, 0x3000]) := by
    simp only [List.mem_cons, List.not_mem_nil, or_false]
    omega
  unfold isWS
  exact decide_eq_false this

theorem isMailboxTail_lower (c : Char) (h : isMailboxTail c = true) :
    asciiLowerChar c = c := by
  have hb := isMailboxTail_bounds c h
  unfold asciiLowerChar
  rw [if_neg]
  omega

theorem isMailboxTail_ne_at (c : Char) (h : isMailboxTail c = true) : c ≠ '@' := by
  intro hc; subst hc; exact absurd h (by decide)

theorem isLowerAlnum_tail (c : Char) (h : isLowerAlnum c = true) : isMailboxTail c = true := by
  unfold isMailboxTail
  rw [h]
  rfl

theorem dropWhile_all_false {α : Type} (p : α → Bool) (l : List α)
    (h : ∀ c ∈ l, p c = false) : l.dropWhile p = l := by
  cases l with
  | nil => rfl
  | cons a l => rw [List.dropWhile_cons, if_neg (by simp [h a (by simp)])]

theorem rustTrim_all_not_ws (l : Str) (h : ∀ c ∈ l, isWS c = false) : rustTrim l = l := by
  unfold rustTrim
  rw [dropWhile_all_false _ _ h,
    dropWhile_all_false _ _ (fun c hc => h c (List.mem_reverse.1 hc)),
    List.reverse_reverse]

theorem map_self_all {α : Type} (f : α → α) (l : List α) (h : ∀ c ∈ l, f c = c) :
    l.map f = l := by
  induction l with
  | nil => rfl
  | cons a l ih =>
    rw [List.map_cons, h a (by simp), ih (fun c hc => h c (by simp [hc]))]

/-! ## Helper lemmas: the mailbox pattern -/

theorem mailboxPattern_classes (m : Str) (h : mailboxPattern m = true) :
    ∀ c ∈ m, isMailboxTail c = true := by
  match m with
  | [] => exact absurd h (by decide)
  | c :: rest =>
    unfold mailboxPattern at h
    simp only [Bool.and_eq_true] at h
    obtain ⟨⟨h1, _⟩, h3⟩ := h
    intro x hx
    rcases List.mem_cons.1 hx with rfl | hx
    · exact isLowerAlnum_tail x h1
    · exact List.all_eq_true.1 h3 x hx

theorem mailboxPattern_trim (m : Str) (h : mailboxPattern m = true) : rustTrim m = m :=
  rustTrim_all_not_ws m fun c hc => isMailboxTail_not_ws c (mailboxPattern_classes m h c hc)

theorem mailboxPattern_lower (m : Str) (h : mailboxPattern m = true) : toAsciiLower m = m :=
  map_self_all _ m fun c hc => isMailboxTail_lower c (mailboxPattern_classes m h c hc)

theorem mailboxPattern_not_mem_at (m : Str) (h : mailboxPattern m = true) : '@' ∉ m :=
  fun hm => isMailboxTail_ne_at '@' (mailboxPattern_classes m h '@' hm) rfl

theorem mailboxPattern_contains_at (m : Str) (h : mailboxPattern m = true) :
    m.contains '@' = false := by
  rw [Bool.eq_false_iff]
  intro hc
  exact mailboxPattern_not_mem_at m h (List.elem_iff.mp hc)

/-- `parse_email` only succeeds with a regex-valid mailbox and a
non-empty domain. -/
theorem parse_email_ok_inv (input mb dm : Str) (h : parse_email input = .ok (mb, dm)) :
    mailboxPattern mb = true ∧ dm ≠ [] := by
  unfold parse_email at h
  dsimp only at h
  split at h
  · exact absurd h (by simp)
  · split at h
    · exact absurd h (by simp)
    · split at h
      · split at h
        · exact absurd h (by simp)
        · rename_i hpat hdm
          injection h with h
          injection h with h1 h2
          subst h1; subst h2
          exact ⟨hpat, hdm⟩
      · exact absurd h (by simp)

/-! ## Claim C3 -/

/-- C3 (amended): for every input accepted by `normalize_mailbox`, the
rendered address is `mailbox@expected_domain` whenever the configured
`expected_domain` normalizes to a non-empty string; when it is empty the
rendered address is the bare mailbox (containing no `@`) for inputs that
contain no `@` after normalization — but an input containing `@` is then
rendered as `mailbox@domain` with the domain taken from the input. -/
theorem normalize_mailbox_rendered (input expectedDomain m r : Str)
    (h : normalize_mailbox input expectedDomain = .ok (m, r)) :
    (toAsciiLower (rustTrim expectedDomain) ≠ [] →
      r = m ++ '@' :: toAsciiLower (rustTrim expectedDomain))
    ∧ (toAsciiLower (rustTrim expectedDomain) = [] →
      (normalizeAddr input).contains '@' = false →
      r = m ∧ r.contains '@' = false) := by
  unfold normalize_mailbox at h
  dsimp only at h
  split at h
  · rename_i hc
    split at h
    · exact absurd h (by simp)
    · split at h
      · exact absurd h (by simp)
      · rename_i hguard
        injection h with h
        injection h with h1 h2
        subst h1; subst h2
        push_neg at hguard
        constructor
        · intro hne
          rw [hguard hne]
        · intro _ hcontr
          rw [hc] at hcontr
          cases hcontr
  · rename_i hc
    split at h
    · rename_i hpat
      split at h
      · rename_i hemp
        injection h with h
        injection h with h1 h2
        subst h1; subst h2
        refine ⟨fun hne => absurd hemp hne, fun _ _ => ⟨rfl, ?_⟩⟩
        exact mailboxPattern_contains_at _ hpat
      · rename_i hemp
        injection h with h
        injection h with h1 h2
        subst h1; subst h2
        exact ⟨fun _ => rfl, fun he => absurd he hemp⟩
    · exact absurd h (by simp)

/-- C3 counterexample: with an empty configured domain, the input `a@b`
is accepted and rendered as `a@b`, which contains `@` — not the bare
mailbox the claim promises for the empty-domain case. -/
theorem normalize_mailbox_rendered_cex :
    normalize_mailbox "a@b".data "".data = .ok ("a".data, "a@b".data)
    ∧ ("a@b".data).contains '@' = true := by
  constructor
  · decide
  · decide

/-- Witness for `normalize_mailbox_rendered` at a concrete accepted
input. -/
theorem normalize_mailbox_rendered_witness :
    (toAsciiLower (rustTrim "ex.org".data) ≠ [] →
      "alice@ex.org".data = "alice".data ++ '@' :: toAsciiLower (rustTrim "ex.org".data))
    ∧ (toAsciiLower (rustTrim "ex.org".data) = [] →
      (normalizeAddr "alice".data).contains '@' = false →
      "alice@ex.org".data = "alice".data ∧ ("alice@ex.org".data).contains '@' = false) :=
  normalize_mailbox_rendered "alice".data "ex.org".data "alice".data "alice@ex.org".data
    (by decide)

/-! ## Claim C10 -/

/-- C10: deleting with an id that trims to the empty string returns
`false`, leaves the store untouched and publishes no event. -/
theorem delete_blank_id_noop (σ : MapM) (mailbox mid : Str) (now : Int)
    (h : rustTrim mid = []) :
    Store.delete σ mailbox mid now = (σ, false, none) := by
  unfold Store.delete
  simp [h]

/-- Witness for `delete_blank_id_noop` on a whitespace-only id. -/
theorem delete_blank_id_noop_witness :
    Store.delete emptyMap "bob".data "  ".data 7 = (emptyMap, false, none) :=
  delete_blank_id_noop emptyMap "bob".data "  ".data 7 (by decide)

/-! ## Claim C7 -/

/-- One unfolding step of `readDataGo` behaves as the `if`-chain of the
source loop. -/
theorem readDataGo_cons (maxB : Nat) (line : Str) (rest : List Str) (raw : Str) :
    readDataGo maxB (line :: rest) raw =
      if isTermLine line then .ok raw
      else
        if maxB < (raw ++ destuff line).length then .error (552, "message too large".data)
        else readDataGo maxB rest (raw ++ destuff line) := rfl

/-- Accumulation invariant of the DATA loop: running over
terminator-free lines `pre` followed by a terminator either returns the
destuffed concatenation or fails with 552 as soon as it would exceed
`maxB`. -/
theorem readDataGo_spec (maxB : Nat) (term : Str) (hterm : isTermLine term = true)
    (rest : List Str) :
    ∀ pre : List Str, (∀ l ∈ pre, isTermLine l = false) → ∀ raw : Str, raw.length ≤ maxB →
      readDataGo maxB (pre ++ term :: rest) raw =
        if (raw ++ (pre.map destuff).flatten).length ≤ maxB then
          .ok (raw ++ (pre.map destuff).flatten)
        else .error (552, "message too large".data) := by
  intro pre
  induction pre with
  | nil =>
    intro _ raw hraw
    simp only [List.nil_append, List.map_nil, List.flatten_nil, List.append_nil]
    rw [readDataGo_cons, if_pos hterm, if_pos hraw]
  | cons l pre ih =>
    intro hpre raw hraw
    have hl : isTermLine l = false := hpre l (by simp)
    simp only [List.cons_append, List.map_cons, List.flatten_cons]
    rw [readDataGo_cons, if_neg (by simp [hl])]
    by_cases hsz : maxB < (raw ++ destuff l).length
    · rw [if_pos hsz, if_neg]
      simp only [List.length_append] at hsz ⊢
      omega
    · rw [if_neg hsz, ih (fun x hx => hpre x (by simp [hx])) _ (Nat.le_of_not_lt hsz)]
      simp only [List.append_assoc]

/-- C7: in DATA mode the accumulated body is the concatenation (with
original terminators) of the destuffed lines preceding the first
terminator line, each line starting with `..` losing exactly one leading
dot; and whenever an append pushes the buffer over `max_message_bytes`
the loop aborts with `552 message too large` and the connection handler
resets the transaction. -/
theorem read_data_block_spec (pre rest : List Str) (term : Str) (maxB : Nat)
    (tx : Transaction)
    (hterm : isTermLine term = true)
    (hpre : ∀ l ∈ pre, isTermLine l = false) :
    ((pre.map destuff).flatten.length ≤ maxB →
      read_data_block (pre ++ term :: rest) maxB = .ok (pre.map destuff).flatten)
    ∧ (maxB < (pre.map destuff).flatten.length →
      data_block_step tx (pre ++ term :: rest) maxB =
        .error ((552, "message too large".data), tx.reset)) := by
  have key := readDataGo_spec maxB term hterm rest pre hpre [] (by simp)
  simp only [List.nil_append] at key
  constructor
  · intro hle
    unfold read_data_block
    rw [key, if_pos hle]
  · intro hgt
    unfold data_block_step read_data_block
    rw [key, if_neg (by omega)]

/-- Witness for `read_data_block_spec`: a dot-stuffed body below the
limit is decoded, and an oversized body aborts with 552 and resets the
transaction. -/
theorem read_data_block_spec_witness :
    read_data_block (["..a\r\n".data, "b\r\n".data] ++ ".\r\n".data :: []) 100
      = .ok ((["..a\r\n".data, "b\r\n".data].map destuff).flatten)
    ∧ data_block_step ⟨"f".data, [⟨"m".data, "m".data⟩]⟩
        (["xxxx\r\n".data] ++ ".\r\n".data :: []) 3
      = .error ((552, "message too large".data),
          Transaction.reset ⟨"f".data, [⟨"m".data, "m".data⟩]⟩) :=
  ⟨(read_data_block_spec ["..a\r\n".data, "b\r\n".data] [] ".\r\n".data 100
      ⟨[], []⟩ (by decide) (by decide)).1 (by decide),
   (read_data_block_spec ["xxxx\r\n".data] [] ".\r\n".data 3
      ⟨"f".data, [⟨"m".data, "m".data⟩]⟩ (by decide) (by decide)).2 (by decide)⟩

/-! ## Claim C4 -/

theorem dropWhile_eq_self_of_head {α : Type} (p : α → Bool) (l : List α)
    (h : ∀ c, l.head? = some c → p c = false) : l.dropWhile p = l := by
  cases l with
  | nil => rfl
  | cons a t => rw [List.dropWhile_cons, if_neg (by simp [h a rfl])]

theorem dropWhile_self_head {α : Type} (p : α → Bool) (l : List α)
    (h : l.dropWhile p = l) : ∀ c, l.head? = some c → p c = false := by
  intro c hc
  cases l with
  | nil => cases hc
  | cons a t =>
    injection hc with hc
    subst hc
    by_contra hp
    rw [Bool.not_eq_false] at hp
    rw [List.dropWhile_cons, if_pos hp] at h
    have hlen := (List.dropWhile_sublist (l := t) (p := p)).length_le
    rw [h] at hlen
    simp at hlen

theorem rustTrim_eq_self (l : Str)
    (h1 : ∀ c, l.head? = some c → isWS c = false)
    (h2 : ∀ c, l.reverse.head? = some c → isWS c = false) :
    rustTrim l = l := by
  unfold rustTrim
  rw [dropWhile_eq_self_of_head _ _ h1, dropWhile_eq_self_of_head _ _ h2,
    List.reverse_reverse]

theorem normalizeAddr_eq_self (l : Str)
    (h1 : ∀ c, l.head? = some c → isWS c = false ∧ ¬ c = '<')
    (h2 : ∀ c, l.reverse.head? = some c → isWS c = false ∧ ¬ c = '>') :
    normalizeAddr l = l := by
  unfold normalizeAddr trimStartMatches trimEndMatches
  rw [rustTrim_eq_self l (fun c hc => (h1 c hc).1) (fun c hc => (h2 c hc).1)]
  rw [dropWhile_eq_self_of_head _ _ (fun c hc => decide_eq_false (h1 c hc).2)]
  rw [dropWhile_eq_self_of_head _ _ (fun c hc => decide_eq_false (h2 c hc).2),
    List.reverse_reverse]

theorem rfindAt_eq_none (l : Str) (h : '@' ∉ l) : rfindAt l = none := by
  induction l with
  | nil => rfl
  | cons c t ih =>
    simp only [List.mem_cons, not_or] at h
    simp only [rfindAt, ih h.2]
    rw [if_neg (fun hc => h.1 hc.symm)]

theorem rfindAt_append (m d : Str) (hm : '@' ∉ m) (hd : '@' ∉ d) :
    rfindAt (m ++ '@' :: d) = some m.length := by
  induction m with
  | nil =>
    simp only [List.nil_append, List.length_nil]
    simp [rfindAt, rfindAt_eq_none d hd]
  | cons c m ih =>
    have hm' : '@' ∉ m := fun hx => hm (by simp [hx])
    simp only [List.cons_append, rfindAt, List.append_eq, ih hm', List.length_cons]

theorem isMailboxTail_ne_lt (c : Char) (h : isMailboxTail c = true) : c ≠ '<' := by
  intro hc; subst hc; exact absurd h (by decide)

theorem mailboxPattern_head_cases (m : Str) (h : mailboxPattern m = true) :
    ∃ c t, m = c :: t ∧ isLowerAlnum c = true := by
  match m with
  | [] => exact absurd h (by decide)
  | c :: t =>
    unfold mailboxPattern at h
    simp only [Bool.and_eq_true] at h
    exact ⟨c, t, rfl, h.1.1⟩

/-- C4 (amended): `parse_email (mailbox ++ "@" ++ domain)` round-trips to
exactly `(mailbox, domain)` whenever `mailbox` satisfies the mailbox
regex and `domain` is non-empty, contains no `@`, is already ASCII
lowercase, has no leading or trailing whitespace, and does not end in
`>`. -/
theorem parse_email_roundtrip (m d : Str)
    (hm : mailboxPattern m = true)
    (hne : d ≠ [])
    (hat : '@' ∉ d)
    (hlow : toAsciiLower d = d)
    (hts : d.dropWhile isWS = d)
    (hte : d.reverse.dropWhile isWS = d.reverse)
    (hgt : d.reverse.dropWhile (fun x => x = '>') = d.reverse) :
    parse_email (m ++ '@' :: d) = .ok (m, d) := by
  obtain ⟨c0, t0, rfl, _⟩ := mailboxPattern_head_cases m hm
  have hmem : ∀ x ∈ c0 :: t0, isMailboxTail x = true := mailboxPattern_classes _ hm
  have hrevd : ∀ x, d.reverse.head? = some x → isWS x = false := dropWhile_self_head _ _ hte
  have hrevgt : ∀ x, d.reverse.head? = some x → ¬ x = '>' :=
    fun x hx => of_decide_eq_false (dropWhile_self_head _ _ hgt x hx)
  obtain ⟨cl, tl, hd_eq⟩ : ∃ cl tl, d.reverse = cl :: tl := by
    cases hrev : d.reverse with
    | nil => exact absurd (by rwa [List.reverse_eq_nil_iff] at hrev) hne
    | cons a b => exact ⟨a, b, rfl⟩
  have hrevval : ((c0 :: t0) ++ '@' :: d).reverse.head? = d.reverse.head? := by
    rw [List.reverse_append, List.reverse_cons, List.append_assoc, List.head?_append, hd_eq]
    rfl
  have hval : normalizeAddr ((c0 :: t0) ++ '@' :: d) = (c0 :: t0) ++ '@' :: d := by
    apply normalizeAddr_eq_self
    · intro x hx
      simp only [List.cons_append, List.head?_cons, Option.some.injEq] at hx
      subst hx
      exact ⟨isMailboxTail_not_ws _ (hmem _ (by simp)),
        isMailboxTail_ne_lt _ (hmem _ (by simp))⟩
    · intro x hx
      rw [hrevval] at hx
      exact ⟨hrevd x hx, hrevgt x hx⟩
  have hguard : ¬((c0 :: t0).length = 0 ∨
      (c0 :: t0).length = ((c0 :: t0) ++ '@' :: d).length - 1) := by
    simp only [List.length_cons, List.length_append]
    have := List.length_pos.mpr hne
    omega
  have htake : ((c0 :: t0) ++ '@' :: d).take (c0 :: t0).length = c0 :: t0 :=
    List.take_left _ _
  have hdrop : ((c0 :: t0) ++ '@' :: d).drop ((c0 :: t0).length + 1) = d := by
    rw [List.append_cons]
    have hl : ((c0 :: t0) ++ ['@']).length = (c0 :: t0).length + 1 := by simp
    rw [← hl, List.drop_left]
  have htrimd : rustTrim d = d := by
    unfold rustTrim
    rw [hts, hte, List.reverse_reverse]
  unfold parse_email
  dsimp only
  rw [hval, rfindAt_append _ _ (mailboxPattern_not_mem_at _ hm) hat]
  dsimp only
  rw [if_neg hguard, htake, hdrop, mailboxPattern_trim _ hm, mailboxPattern_lower _ hm,
    htrimd, hlow, if_pos hm, if_neg hne]

/-- C4 counterexample: for the regex-valid mailbox `a` and the non-empty
domain `B`, parsing `a@B` yields `(a, b)` — the domain comes back
lowercased, not the original `B`. -/
theorem parse_email_roundtrip_cex :
    mailboxPattern "a".data = true
    ∧ ("B".data : Str) ≠ []
    ∧ parse_email ("a".data ++ '@' :: "B".data) = .ok ("a".data, "b".data)
    ∧ (Except.ok ("a".data, "b".data) : Except Str (Str × Str)) ≠ .ok ("a".data, "B".data) :=
  ⟨by decide, by decide, by decide, by decide⟩

/-- Witness for `parse_email_roundtrip` at a concrete address. -/
theorem parse_email_roundtrip_witness :
    parse_email ("abc".data ++ '@' :: "example.org".data) =
      .ok ("abc".data, "example.org".data) :=
  parse_email_roundtrip "abc".data "example.org".data (by decide) (by decide) (by decide)
    (by decide) (by decide) (by decide) (by decide)

/-! ## Claim C6 -/

/-- C6 (amended): a successful `MAIL` stores the lowercased extracted
sender and leaves the recipient list cleared; a `MAIL` that fails on an
unparseable path leaves the transaction untouched; but a `MAIL` that
fails on an invalid sender address or a blocked sender domain has
already cleared the recipient list (the stored sender is untouched). -/
theorem handle_mail_from_state (cfg : Config) (tx : Transaction) (arg : Str)
    (res : Except (Nat × Str) Unit) (tx' : Transaction)
    (h : handle_mail_from cfg tx arg = (res, tx')) :
    (res = .ok () → tx'.recipients = []
      ∧ ∃ f, extract_smtp_address arg "FROM:".data = .ok f ∧ tx'.fromAddr = toAsciiLower f)
    ∧ (∀ e msg, res = .error e → extract_smtp_address arg "FROM:".data = .error msg → tx' = tx)
    ∧ (∀ e f, res = .error e → extract_smtp_address arg "FROM:".data = .ok f →
        tx'.fromAddr = tx.fromAddr ∧ tx'.recipients = []) := by
  unfold handle_mail_from at h
  split at h
  · rename_i msg0 heq
    injection h with h1 h2
    subst h1; subst h2
    refine ⟨?_, ?_, ?_⟩
    · intro hok; exact Except.noConfusion hok
    · intro e msg _ _; rfl
    · intro e f _ hex
      rw [heq] at hex
      exact Except.noConfusion hex
  · rename_i f0 heq
    dsimp only at h
    split at h
    · rename_i hf0
      injection h with h1 h2
      subst h1; subst h2
      refine ⟨?_, ?_, ?_⟩
      · intro _
        refine ⟨rfl, f0, heq, ?_⟩
        rw [hf0]
        rfl
      · intro e msg he _; exact Except.noConfusion he
      · intro e f he _; exact Except.noConfusion he
    · split at h
      · injection h with h1 h2
        subst h1; subst h2
        refine ⟨?_, ?_, ?_⟩
        · intro hok; exact Except.noConfusion hok
        · intro e msg _ hex
          rw [heq] at hex
          exact Except.noConfusion hex
        · intro e f _ _; exact ⟨rfl, rfl⟩
      · split at h
        · injection h with h1 h2
          subst h1; subst h2
          refine ⟨?_, ?_, ?_⟩
          · intro hok; exact Except.noConfusion hok
          · intro e msg _ hex
            rw [heq] at hex
            exact Except.noConfusion hex
          · intro e f _ _; exact ⟨rfl, rfl⟩
        · injection h with h1 h2
          subst h1; subst h2
          refine ⟨?_, ?_, ?_⟩
          · intro _; exact ⟨rfl, f0, heq, rfl⟩
          · intro e msg he _; exact Except.noConfusion he
          · intro e f he _; exact Except.noConfusion he

/-- C6 counterexample: `MAIL FROM:<bad>` fails with
`550 invalid sender address`, yet the recipient list of the transaction
has been cleared — the transaction state is not left unchanged. -/
theorem handle_mail_from_cex :
    handle_mail_from ⟨[], [], [], 1024⟩ ⟨"x".data, [⟨"m".data, "m".data⟩]⟩ "FROM:<bad>".data
      = (.error (550, "invalid sender address".data), ⟨"x".data, []⟩)
    ∧ (⟨"x".data, []⟩ : Transaction) ≠ ⟨"x".data, [⟨"m".data, "m".data⟩]⟩ :=
  ⟨by decide, by decide⟩

/-- Witness for `handle_mail_from_state` on a successful `MAIL`. -/
theorem handle_mail_from_state_witness :
    (⟨"a@b".data, ([] : List Recipient)⟩ : Transaction).recipients = []
    ∧ ∃ f, extract_smtp_address "FROM:<A@B>".data "FROM:".data = .ok f
        ∧ (⟨"a@b".data, ([] : List Recipient)⟩ : Transaction).fromAddr = toAsciiLower f :=
  (handle_mail_from_state ⟨[], [], [], 1024⟩ ⟨"old".data, [⟨"m".data, "m".data⟩]⟩
    "FROM:<A@B>".data (.ok ()) ⟨"a@b".data, []⟩ (by decide)).1 rfl

/-! ## Claim C5 -/

theorem prune_mailbox_sublist (b : List Msg) (now ttl : Int) (mm : Nat) :
    List.Sublist (prune_mailbox b now ttl mm) b := by
  unfold prune_mailbox
  dsimp only
  split
  · exact (List.drop_sublist _ _).trans (List.filter_sublist _)
  · exact List.filter_sublist _

theorem mem_prune_mailbox (b : List Msg) (now ttl : Int) (mm : Nat) (x : Msg)
    (hx : x ∈ prune_mailbox b now ttl mm) :
    x ∈ b ∧ now - ttl ≤ x.received_at := by
  unfold prune_mailbox at hx
  dsimp only at hx
  have hk : x ∈ b.filter (fun item => now - ttl ≤ item.received_at) := by
    split at hx
    · exact (List.drop_sublist _ _).mem hx
    · exact hx
  have := List.mem_filter.1 hk
  exact ⟨this.1, by simpa using this.2⟩

theorem prune_mailbox_length_le (b : List Msg) (now ttl : Int) (mm : Nat) :
    (prune_mailbox b now ttl mm).length ≤ mm := by
  unfold prune_mailbox
  dsimp only
  split
  · rename_i hlt
    rw [List.length_drop]
    omega
  · rename_i hge
    omega

/-- `Store::get` finds nothing when no message in the bucket carries the
requested id. -/
theorem get_none_of_no_id (cfg : StoreCfg) (σ : MapM) (mb mid : Str) (now : Int)
    (h : ∀ x ∈ σ (normKey mb), x.id ≠ mid) :
    (Store.get cfg σ mb mid now).2 = none := by
  unfold Store.get
  dsimp only
  rw [List.find?_eq_none]
  intro x hx
  have hx' : x ∈ prune_mailbox (σ (normKey mb)) now cfg.ttl cfg.max_messages :=
    List.mem_reverse.1 hx
  have hxm : x ∈ σ (normKey mb) := (mem_prune_mailbox _ _ _ _ _ hx').1
  simp only [decide_eq_true_eq]
  exact h x hxm

/-- Characterization of `Store::delete` for a non-blank, already-trimmed
id: either something with that id is in the bucket and it is removed
(with a `Deleted` event), or nothing matches and the call is a no-op. -/
theorem delete_char (σ : MapM) (mb mid : Str) (now : Int)
    (hid : rustTrim mid = mid) (hne : mid ≠ []) :
    (Store.delete σ mb mid now =
        (Function.update σ (normKey mb)
          ((σ (normKey mb)).filter (fun x => x.id ≠ mid)), true,
          some ⟨.deleted, normKey mb, some mid, now⟩)
      ∧ ∃ x ∈ σ (normKey mb), x.id = mid)
    ∨ (Store.delete σ mb mid now = (σ, false, none)
      ∧ ∀ x ∈ σ (normKey mb), x.id ≠ mid) := by
  unfold Store.delete
  rw [hid, if_neg hne]
  dsimp only
  by_cases hlen : ((σ (normKey mb)).filter (fun x => x.id ≠ mid)).length
      = (σ (normKey mb)).length
  · right
    refine ⟨by rw [if_pos hlen], ?_⟩
    intro x hx
    have := List.filter_length_eq_length.1 hlen x hx
    simpa using this
  · left
    refine ⟨by rw [if_neg hlen], ?_⟩
    by_contra hno
    push_neg at hno
    exact hlen (List.filter_length_eq_length.2 fun x hx => by simpa using hno x hx)

/-- C5 (amended): for an id that is non-blank and equal to its own trim,
`delete(m, id)` returns true iff the `list(m)` snapshot taken from the
same state contained a message with that id; after the delete,
`get(m, id)` is absent; and a `Deleted{mailbox, id}` event is published
exactly when something was removed. -/
theorem delete_matches_prior_list (cfg : StoreCfg) (σ : MapM) (mb mid : Str)
    (nowL nowD nowG : Int) (hid : rustTrim mid = mid) (hne : mid ≠ []) :
    ((Store.delete (Store.list cfg σ mb nowL).1 mb mid nowD).2.1 = true ↔
      ∃ x ∈ (Store.list cfg σ mb nowL).2, x.id = mid)
    ∧ (Store.get cfg (Store.delete (Store.list cfg σ mb nowL).1 mb mid nowD).1
        mb mid nowG).2 = none
    ∧ (Store.delete (Store.list cfg σ mb nowL).1 mb mid nowD).2.2.isSome
        = (Store.delete (Store.list cfg σ mb nowL).1 mb mid nowD).2.1
    ∧ ((Store.delete (Store.list cfg σ mb nowL).1 mb mid nowD).2.1 = true →
      (Store.delete (Store.list cfg σ mb nowL).1 mb mid nowD).2.2
        = some ⟨.deleted, normKey mb, some mid, nowD⟩) := by
  have hup : (Store.list cfg σ mb nowL).1 (normKey mb)
      = prune_mailbox (σ (normKey mb)) nowL cfg.ttl cfg.max_messages :=
    Function.update_same _ _ _
  have hr : (Store.list cfg σ mb nowL).2
      = (prune_mailbox (σ (normKey mb)) nowL cfg.ttl cfg.max_messages).reverse := rfl
  rcases delete_char (Store.list cfg σ mb nowL).1 mb mid nowD hid hne with
    ⟨heq, x, hx, hxid⟩ | ⟨heq, hall⟩
  · rw [heq]
    refine ⟨?_, ?_, rfl, fun _ => rfl⟩
    · refine ⟨fun _ => ⟨x, ?_, hxid⟩, fun _ => rfl⟩
      rw [hr]
      rw [hup] at hx
      exact List.mem_reverse.2 hx
    · apply get_none_of_no_id
      intro y hy
      dsimp only at hy
      rw [Function.update_same] at hy
      have := List.mem_filter.1 hy
      simpa using this.2
  · rw [heq]
    refine ⟨?_, ?_, rfl, fun hc => nomatch hc⟩
    · constructor
      · intro hc; cases hc
      · rintro ⟨x, hx, hxid⟩
        rw [hr] at hx
        have hx' := List.mem_reverse.1 hx
        rw [← hup] at hx'
        exact absurd hxid (hall x hx')
    · apply get_none_of_no_id
      exact hall

/-- C5 counterexample: a message whose stored id is `" x "` (with
spaces) appears in `list`, but `delete` with exactly that id trims it to
`"x"`, matches nothing and returns false. -/
theorem delete_matches_prior_list_cex :
    (∃ x ∈ (Store.list ⟨10, 60⟩
        ((Store.add ⟨10, 60⟩ emptyMap "m".data ⟨" x ".data, "m".data, 100, 100⟩ 100).1)
        "m".data 100).2, x.id = " x ".data)
    ∧ (Store.delete (Store.list ⟨10, 60⟩
        ((Store.add ⟨10, 60⟩ emptyMap "m".data ⟨" x ".data, "m".data, 100, 100⟩ 100).1)
        "m".data 100).1 "m".data " x ".data 100).2.1 = false := by
  constructor
  · exact ⟨⟨" x ".data, "m".data, 100, 100⟩, by decide, rfl⟩
  · decide

/-- Witness for `delete_matches_prior_list` on a one-message store. -/
theorem delete_matches_prior_list_witness :
    ((Store.delete (Store.list ⟨10, 60⟩
        ((Store.add ⟨10, 60⟩ emptyMap "m".data ⟨"x".data, "m".data, 100, 100⟩ 100).1)
        "m".data 100).1 "m".data "x".data 100).2.1 = true ↔
      ∃ x ∈ (Store.list ⟨10, 60⟩
        ((Store.add ⟨10, 60⟩ emptyMap "m".data ⟨"x".data, "m".data, 100, 100⟩ 100).1)
        "m".data 100).2, x.id = "x".data)
    ∧ (Store.get ⟨10, 60⟩ (Store.delete (Store.list ⟨10, 60⟩
        ((Store.add ⟨10, 60⟩ emptyMap "m".data ⟨"x".data, "m".data, 100, 100⟩ 100).1)
        "m".data 100).1 "m".data "x".data 100).1 "m".data "x".data 100).2 = none
    ∧ (Store.delete (Store.list ⟨10, 60⟩
        ((Store.add ⟨10, 60⟩ emptyMap "m".data ⟨"x".data, "m".data, 100, 100⟩ 100).1)
        "m".data 100).1 "m".data "x".data 100).2.2.isSome
        = (Store.delete (Store.list ⟨10, 60⟩
        ((Store.add ⟨10, 60⟩ emptyMap "m".data ⟨"x".data, "m".data, 100, 100⟩ 100).1)
        "m".data 100).1 "m".data "x".data 100).2.1
    ∧ ((Store.delete (Store.list ⟨10, 60⟩
        ((Store.add ⟨10, 60⟩ emptyMap "m".data ⟨"x".data, "m".data, 100, 100⟩ 100).1)
        "m".data 100).1 "m".data "x".data 100).2.1 = true →
      (Store.delete (Store.list ⟨10, 60⟩
        ((Store.add ⟨10, 60⟩ emptyMap "m".data ⟨"x".data, "m".data, 100, 100⟩ 100).1)
        "m".data 100).1 "m".data "x".data 100).2.2
        = some ⟨.deleted, normKey "m".data, some "x".data, 100⟩) :=
  delete_matches_prior_list ⟨10, 60⟩
    ((Store.add ⟨10, 60⟩ emptyMap "m".data ⟨"x".data, "m".data, 100, 100⟩ 100).1)
    "m".data "x".data 100 100 100 (by decide) (by decide)

/-! ## Claim C8 -/

theorem lookupA_insertHeader (acc : List (Str × List Str)) (k : Str) (v : Str) (k0 : Str) :
    lookupA (insertHeader acc k v) k0
      = lookupA acc k0 ++ (if k = k0 then [v] else []) := by
  induction acc with
  | nil => by_cases h : k = k0 <;> simp [insertHeader, lookupA, h]
  | cons p acc ih =>
    obtain ⟨k', vs⟩ := p
    by_cases h : k' = k
    · subst h
      by_cases h0 : k' = k0
      · subst h0
        simp [insertHeader, lookupA]
      · simp [insertHeader, lookupA, h0]
    · by_cases h0 : k' = k0
      · subst h0
        have h' : ¬ k = k' := fun hh => h hh.symm
        simp [insertHeader, lookupA, h, h']
      · simp [insertHeader, lookupA, h, h0, ih]

theorem lookupA_extractHeadersGo (hs : List (Str × Str)) :
    ∀ (acc : List (Str × List Str)) (k : Str),
      lookupA (extractHeadersGo acc hs) k
        = lookupA acc k ++ (hs.filter (fun p => p.1 = k)).map Prod.snd := by
  induction hs with
  | nil => intro acc k; simp [extractHeadersGo]
  | cons p hs ih =>
    intro acc k
    obtain ⟨pk, pv⟩ := p
    show lookupA (extractHeadersGo (insertHeader acc pk pv) hs) k = _
    rw [ih, lookupA_insertHeader]
    by_cases h : pk = k
    · subst h
      simp [List.filter_cons, List.append_assoc]
    · simp [List.filter_cons, h]

theorem lookupA_ne_nil_mem (es : List (Str × List Str)) (k : Str)
    (h : lookupA es k ≠ []) : (k, lookupA es k) ∈ es := by
  induction es with
  | nil => exact absurd rfl h
  | cons p es ih =>
    obtain ⟨k', vs⟩ := p
    by_cases hk : k' = k
    · subst hk
      simp [lookupA]
    · simp only [lookupA, if_neg hk] at h ⊢
      exact List.mem_cons_of_mem _ (ih h)

theorem lookupA_of_mem (es : List (Str × List Str)) (k : Str) (vs : List Str)
    (hnd : es.Pairwise (fun a b => a.1 ≠ b.1)) (hmem : (k, vs) ∈ es) :
    lookupA es k = vs := by
  induction es with
  | nil => cases hmem
  | cons p es ih =>
    obtain ⟨k', vs'⟩ := p
    rcases List.mem_cons.1 hmem with heq | htail
    · injection heq with h1 h2
      subst h1; subst h2
      simp [lookupA]
    · have hne : k' ≠ k := by
        have := (List.pairwise_cons.1 hnd).1 (k, vs) htail
        simpa using this
      simp only [lookupA, if_neg hne]
      exact ih (List.pairwise_cons.1 hnd).2 htail

theorem key_mem_insertHeader (acc : List (Str × List Str)) (k : Str) (v : Str)
    (y : Str × List Str) (hy : y ∈ insertHeader acc k v) :
    (∃ w, (y.1, w) ∈ acc) ∨ y.1 = k := by
  induction acc with
  | nil =>
    simp only [insertHeader, List.mem_singleton] at hy
    exact Or.inr (by rw [hy])
  | cons p acc ih =>
    obtain ⟨k', vs⟩ := p
    by_cases h : k' = k
    · simp only [insertHeader, if_pos h, List.mem_cons] at hy
      rcases hy with heq | hy
      · exact Or.inr (by rw [heq]; exact h)
      · exact Or.inl ⟨y.2, List.mem_cons_of_mem _ hy⟩
    · simp only [insertHeader, if_neg h, List.mem_cons] at hy
      rcases hy with heq | hy
      · exact Or.inl ⟨vs, by rw [heq]; exact List.mem_cons_self _ _⟩
      · rcases ih hy with ⟨w, hw⟩ | hk
        · exact Or.inl ⟨w, List.mem_cons_of_mem _ hw⟩
        · exact Or.inr hk

theorem pairwise_insertHeader (acc : List (Str × List Str)) (k : Str) (v : Str)
    (h : acc.Pairwise (fun a b => a.1 ≠ b.1)) :
    (insertHeader acc k v).Pairwise (fun a b => a.1 ≠ b.1) := by
  induction acc with
  | nil => simp [insertHeader]
  | cons p acc ih =>
    obtain ⟨k', vs⟩ := p
    obtain ⟨hhead, htail⟩ := List.pairwise_cons.1 h
    by_cases hk : k' = k
    · subst hk
      simp only [insertHeader, if_pos rfl]
      exact List.pairwise_cons.2 ⟨fun y hy => hhead y hy, htail⟩
    · simp only [insertHeader, if_neg hk]
      refine List.pairwise_cons.2 ⟨?_, ih htail⟩
      intro y hy
      rcases key_mem_insertHeader acc k v y hy with ⟨w, hw⟩ | hyk
      · exact hhead (y.1, w) hw
      · rw [hyk]; exact hk

theorem pairwise_extractHeadersGo (hs : List (Str × Str)) :
    ∀ acc : List (Str × List Str), acc.Pairwise (fun a b => a.1 ≠ b.1) →
      (extractHeadersGo acc hs).Pairwise (fun a b => a.1 ≠ b.1) := by
  induction hs with
  | nil => intro acc h; exact h
  | cons p hs ih =>
    intro acc h
    exact ih _ (pairwise_insertHeader acc p.1 p.2 h)

theorem key_mem_extractHeadersGo (hs : List (Str × Str)) :
    ∀ (acc : List (Str × List Str)) (y : Str × List Str),
      y ∈ extractHeadersGo acc hs →
      (∃ w, (y.1, w) ∈ acc) ∨ (∃ p ∈ hs, p.1 = y.1) := by
  induction hs with
  | nil =>
    intro acc y hy
    exact Or.inl ⟨y.2, hy⟩
  | cons p hs ih =>
    intro acc y hy
    rcases ih (insertHeader acc p.1 p.2) y hy with ⟨w, hw⟩ | ⟨q, hq, hqk⟩
    · rcases key_mem_insertHeader acc p.1 p.2 (y.1, w) hw with ⟨w', hw'⟩ | hk
      · exact Or.inl ⟨w', hw'⟩
      · exact Or.inr ⟨p, List.mem_cons_self _ _, hk.symm⟩
    · exact Or.inr ⟨q, List.mem_cons_of_mem _ hq, hqk⟩

theorem findSome?_of_unique {α β : Type} (f : α → Option β) (l : List α) (x : α) (v : β)
    (hx : x ∈ l) (hfx : f x = some v)
    (huniq : ∀ y ∈ l, f y = none ∨ y = x) :
    l.findSome? f = some v := by
  induction l with
  | nil => cases hx
  | cons a l ih =>
    rcases huniq a (List.mem_cons_self _ _) with ha | ha
    · have hxl : x ∈ l := by
        rcases List.mem_cons.1 hx with rfl | h
        · rw [hfx] at ha; cases ha
        · exact h
      rw [List.findSome?_cons, ha]
      exact ih hxl fun y hy => huniq y (List.mem_cons_of_mem _ hy)
    · subst ha
      rw [List.findSome?_cons, hfx]

/-- C8 (amended): header collection preserves the original case of each
key and the order of duplicate values under the same exact key (first
conjunct, unconditional).  Header lookup is case-insensitive, but it
scans the hash map in an unspecified order (any permutation of the
entries); it returns the value of the first occurrence in the message
only under the additional assumption that every case-insensitive match
of the looked-up key in the message uses one single spelling `s`
(second conjunct). -/
theorem header_lookup_spec (hs : List (Str × Str)) (key s : Str)
    (entries : List (Str × List Str))
    (hperm : entries.Perm (extract_headers hs))
    (hsp : ∀ p ∈ hs, eqIgnoreAsciiCase p.1 key = true → p.1 = s)
    (hex : ∃ p ∈ hs, eqIgnoreAsciiCase p.1 key = true) :
    (∀ k, lookupA (extract_headers hs) k = (hs.filter (fun p => p.1 = k)).map Prod.snd)
    ∧ find_first_header entries key
        = ((hs.filter (fun p => eqIgnoreAsciiCase p.1 key)).map Prod.snd).head? := by
  have part1 : ∀ k, lookupA (extract_headers hs) k
      = (hs.filter (fun p => p.1 = k)).map Prod.snd := by
    intro k
    have := lookupA_extractHeadersGo hs [] k
    simpa [extract_headers, lookupA] using this
  refine ⟨part1, ?_⟩
  obtain ⟨p0, hp0mem, hp0⟩ := hex
  have hps : p0.1 = s := hsp p0 hp0mem hp0
  have hkeyeq : eqIgnoreAsciiCase s key = true := by rw [← hps]; exact hp0
  have hfilter : hs.filter (fun p => eqIgnoreAsciiCase p.1 key)
      = hs.filter (fun p => p.1 = s) := by
    apply List.filter_congr
    intro p hp
    by_cases hm : eqIgnoreAsciiCase p.1 key = true
    · rw [hm, (decide_eq_true (hsp p hp hm)).symm]
    · have hns : p.1 ≠ s := fun hh => hm (by rw [hh]; exact hkeyeq)
      rw [Bool.eq_false_iff.mpr hm, decide_eq_false hns]
  have hlook : lookupA (extract_headers hs) s = (hs.filter (fun p => p.1 = s)).map Prod.snd :=
    part1 s
  have hmemf : p0 ∈ hs.filter (fun p => p.1 = s) :=
    List.mem_filter.2 ⟨hp0mem, by simp [hps]⟩
  have hvs_ne : (hs.filter (fun p => p.1 = s)).map Prod.snd ≠ [] := by
    intro hnil
    exact List.ne_nil_of_mem hmemf (List.map_eq_nil_iff.1 hnil)
  obtain ⟨v0, t0, hvs_eq⟩ : ∃ v0 t0, (hs.filter (fun p => p.1 = s)).map Prod.snd = v0 :: t0 := by
    cases hv : (hs.filter (fun p => p.1 = s)).map Prod.snd with
    | nil => exact absurd hv hvs_ne
    | cons a b => exact ⟨a, b, rfl⟩
  have hnd : (extract_headers hs).Pairwise (fun a b => a.1 ≠ b.1) :=
    pairwise_extractHeadersGo hs [] (by simp)
  have hx_mem : (s, (hs.filter (fun p => p.1 = s)).map Prod.snd) ∈ extract_headers hs := by
    have := lookupA_ne_nil_mem (extract_headers hs) s (by rw [hlook]; exact hvs_ne)
    rwa [hlook] at this
  have hx_entries : (s, (hs.filter (fun p => p.1 = s)).map Prod.snd) ∈ entries :=
    hperm.mem_iff.2 hx_mem
  have hfx : (if eqIgnoreAsciiCase
        ((s, (hs.filter (fun p => p.1 = s)).map Prod.snd)).1 key then
        ((s, (hs.filter (fun p => p.1 = s)).map Prod.snd)).2.head? else none) = some v0 := by
    rw [if_pos hkeyeq]
    rw [hvs_eq]
    rfl
  have huniq : ∀ y ∈ entries,
      (if eqIgnoreAsciiCase y.1 key then y.2.head? else none) = none
      ∨ y = (s, (hs.filter (fun p => p.1 = s)).map Prod.snd) := by
    intro y hy
    have hy' : y ∈ extract_headers hs := hperm.mem_iff.1 hy
    by_cases hm : eqIgnoreAsciiCase y.1 key = true
    · right
      obtain ⟨p, hp, hpk⟩ : ∃ p ∈ hs, p.1 = y.1 := by
        rcases key_mem_extractHeadersGo hs [] y hy' with ⟨w, hw⟩ | h
        · cases hw
        · exact h
      have hy1 : y.1 = s := by
        rw [← hpk]
        exact hsp p hp (by rw [hpk]; exact hm)
      have hy2 : lookupA (extract_headers hs) y.1 = y.2 :=
        lookupA_of_mem _ _ _ hnd (by exact hy')
      have : y.2 = (hs.filter (fun p => p.1 = s)).map Prod.snd := by
        rw [← hy2, hy1, hlook]
      calc y = (y.1, y.2) := rfl
        _ = (s, (hs.filter (fun p => p.1 = s)).map Prod.snd) := by rw [hy1, this]
    · left
      rw [if_neg (by simp [hm])]
  have hfind := findSome?_of_unique _ entries _ v0 hx_entries hfx huniq
  unfold find_first_header
  rw [hfind, hfilter, hvs_eq]
  rfl

/-- C8 counterexample: the header list `FROM: a` then `From: b` yields
two distinct map keys; iterating the map in the (admissible) order that
puts `From` first makes the lookup return `b`, while the first
occurrence of the header in the message is `a`. -/
theorem header_lookup_cex :
    List.Perm [("From".data, ["b".data]), ("FROM".data, ["a".data])]
      (extract_headers [("FROM".data, "a".data), ("From".data, "b".data)])
    ∧ find_first_header [("From".data, ["b".data]), ("FROM".data, ["a".data])] "From".data
      = some "b".data
    ∧ ((([("FROM".data, "a".data), ("From".data, "b".data)]).filter
        (fun p => eqIgnoreAsciiCase p.1 "From".data)).map Prod.snd).head?
      = some "a".data
    ∧ some "b".data ≠ some "a".data := by
  refine ⟨?_, by decide, by decide, by decide⟩
  have : extract_headers [("FROM".data, "a".data), ("From".data, "b".data)]
      = [("FROM".data, ["a".data]), ("From".data, ["b".data])] := by decide
  rw [this]
  exact List.Perm.swap _ _ _

/-- Witness for `header_lookup_spec`: a message whose `From` headers all
use the same spelling; the lookup returns the first occurrence. -/
theorem header_lookup_spec_witness :
    (∀ k, lookupA (extract_headers
        [("From".data, "x".data), ("Subject".data, "s".data), ("From".data, "y".data)]) k
      = (([("From".data, "x".data), ("Subject".data, "s".data), ("From".data, "y".data)]).filter
          (fun p => p.1 = k)).map Prod.snd)
    ∧ find_first_header (extract_headers
        [("From".data, "x".data), ("Subject".data, "s".data), ("From".data, "y".data)])
        "from".data
      = ((([("From".data, "x".data), ("Subject".data, "s".data), ("From".data, "y".data)]).filter
          (fun p => eqIgnoreAsciiCase p.1 "from".data)).map Prod.snd).head? :=
  header_lookup_spec
    [("From".data, "x".data), ("Subject".data, "s".data), ("From".data, "y".data)]
    "from".data "From".data _
    (List.Perm.refl _)
    (by decide)
    ⟨("From".data, "x".data), by decide, by decide⟩

/-! ## Claim C9 -/

/-- Does a signal carry an event for the requested mailbox
(`event.mailbox == mailbox`, `src/http_api.rs:238`)? -/
def itemMatches (mb : Str) : RecvItem → Bool
  | .ev e => e.mailbox = mb
  | _ => false

/-- Is a signal the channel-closure signal? -/
def itemClosed : RecvItem → Bool
  | .closed => true
  | _ => false

/-- One unfolding step of the long-poll loop. -/
theorem next_mailbox_event_cons (mb : Str) (d : Int) (item : RecvItem)
    (rest : List (Int × RecvItem)) :
    next_mailbox_event mb ((d, item) :: rest) =
      if 25 < d then .noContent
      else
        match item with
        | .ev e => if e.mailbox = mb then .ok e else next_mailbox_event mb rest
        | .lag => next_mailbox_event mb rest
        | .closed => .serviceUnavailable := rfl

theorem next_ok_mailbox (mb : Str) : ∀ (trace : List (Int × RecvItem)) (e : StoreEvent),
    next_mailbox_event mb trace = .ok e → e.mailbox = mb := by
  intro trace
  induction trace with
  | nil => intro e h; exact HttpOutcome.noConfusion h
  | cons x rest ih =>
    intro e h
    obtain ⟨d, item⟩ := x
    rw [next_mailbox_event_cons] at h
    by_cases hd : 25 < d
    · rw [if_pos hd] at h; exact HttpOutcome.noConfusion h
    · rw [if_neg hd] at h
      cases item with
      | ev e' =>
        dsimp only at h
        by_cases hm : e'.mailbox = mb
        · rw [if_pos hm] at h
          injection h with h
          rw [← h]; exact hm
        · rw [if_neg hm] at h
          exact ih e h
      | lag => exact ih e h
      | closed => exact HttpOutcome.noConfusion h

theorem next_noContent (mb : Str) : ∀ trace : List (Int × RecvItem),
    (∀ x ∈ trace, x.1 ≤ 25 ∧ itemMatches mb x.2 = false ∧ itemClosed x.2 = false) →
    next_mailbox_event mb trace = .noContent := by
  intro trace
  induction trace with
  | nil => intro _; rfl
  | cons x rest ih =>
    intro h
    obtain ⟨d, item⟩ := x
    obtain ⟨hd, hm, hc⟩ := h (d, item) (List.mem_cons_self _ _)
    rw [next_mailbox_event_cons, if_neg (not_lt.2 hd)]
    cases item with
    | ev e' =>
      dsimp only
      rw [if_neg (by simpa [itemMatches] using hm)]
      exact ih fun x hx => h x (List.mem_cons_of_mem _ hx)
    | lag => exact ih fun x hx => h x (List.mem_cons_of_mem _ hx)
    | closed => exact absurd hc (by simp [itemClosed])

theorem next_first_match (mb : Str) : ∀ (pre : List (Int × RecvItem)) (d : Int)
    (e : StoreEvent) (rest : List (Int × RecvItem)),
    (∀ x ∈ pre, x.1 ≤ 25 ∧ itemMatches mb x.2 = false ∧ itemClosed x.2 = false) →
    d ≤ 25 → e.mailbox = mb →
    next_mailbox_event mb (pre ++ (d, RecvItem.ev e) :: rest) = .ok e := by
  intro pre
  induction pre with
  | nil =>
    intro d e rest _ hd he
    rw [List.nil_append, next_mailbox_event_cons, if_neg (not_lt.2 hd)]
    dsimp only
    rw [if_pos he]
  | cons x pre ih =>
    intro d e rest h hd he
    obtain ⟨d', item⟩ := x
    obtain ⟨hd', hm, hc⟩ := h (d', item) (List.mem_cons_self _ _)
    rw [List.cons_append, next_mailbox_event_cons, if_neg (not_lt.2 hd')]
    cases item with
    | ev e' =>
      dsimp only
      rw [if_neg (by simpa [itemMatches] using hm)]
      exact ih d e rest (fun x hx => h x (List.mem_cons_of_mem _ hx)) hd he
    | lag => exact ih d e rest (fun x hx => h x (List.mem_cons_of_mem _ hx)) hd he
    | closed => exact absurd hc (by simp [itemClosed])

/-- C9 (amended): the long-poll endpoint returns 200 with the first
signal that is an event for the requested mailbox, silently discarding
events for other mailboxes and lag signals; it returns 204 when a single
`recv` goes 25 seconds without any signal — the 25-second timer is
re-armed after every discarded signal, so the budget is per-`recv`, not
a total; it returns 503 when the channel closes; and it never returns an
event for a different mailbox. -/
theorem next_mailbox_event_semantics (mb : Str) :
    (∀ trace e, next_mailbox_event mb trace = .ok e → e.mailbox = mb)
    ∧ (∀ trace : List (Int × RecvItem),
        (∀ x ∈ trace, x.1 ≤ 25 ∧ itemMatches mb x.2 = false ∧ itemClosed x.2 = false) →
        next_mailbox_event mb trace = .noContent)
    ∧ (∀ (d : Int) rest, d ≤ 25 →
        next_mailbox_event mb ((d, RecvItem.lag) :: rest) = next_mailbox_event mb rest)
    ∧ (∀ (d : Int) item rest, 25 < d →
        next_mailbox_event mb ((d, item) :: rest) = .noContent)
    ∧ (∀ (d : Int) rest, d ≤ 25 →
        next_mailbox_event mb ((d, RecvItem.closed) :: rest) = .serviceUnavailable)
    ∧ (∀ pre (d : Int) e rest,
        (∀ x ∈ pre, x.1 ≤ 25 ∧ itemMatches mb x.2 = false ∧ itemClosed x.2 = false) →
        d ≤ 25 → e.mailbox = mb →
        next_mailbox_event mb (pre ++ (d, RecvItem.ev e) :: rest) = .ok e) := by
  refine ⟨next_ok_mailbox mb, next_noContent mb, ?_, ?_, ?_, next_first_match mb⟩
  · intro d rest hd
    rw [next_mailbox_event_cons, if_neg (not_lt.2 hd)]
  · intro d item rest hd
    rw [next_mailbox_event_cons, if_pos hd]
  · intro d rest hd
    rw [next_mailbox_event_cons, if_neg (not_lt.2 hd)]

/-- C9 counterexample: three signals 20 seconds apart; the matching
event arrives 60 seconds after subscription (far beyond a 25-second
total budget), yet the endpoint returns it with 200 instead of having
returned 204 at 25 seconds — each discarded signal re-arms the timeout. -/
theorem next_mailbox_event_cex :
    next_mailbox_event "bob".data
      [(20, .ev ⟨.added, "alice".data, none, 0⟩),
       (20, .ev ⟨.added, "alice".data, none, 1⟩),
       (20, .ev ⟨.added, "bob".data, some "id1".data, 2⟩)]
      = .ok ⟨.added, "bob".data, some "id1".data, 2⟩
    ∧ (25 : Int) < 20 + 20 + 20
    ∧ next_mailbox_event "bob".data
      [(20, .ev ⟨.added, "alice".data, none, 0⟩),
       (20, .ev ⟨.added, "alice".data, none, 1⟩),
       (20, .ev ⟨.added, "bob".data, some "id1".data, 2⟩)]
      ≠ .noContent := by
  refine ⟨by decide, by decide, by decide⟩

/-- Witness for `next_mailbox_event_semantics`: a lag signal and a
foreign event are discarded, then the matching event is returned. -/
theorem next_mailbox_event_semantics_witness :
    next_mailbox_event "bob".data
      ([(10, RecvItem.lag), (5, RecvItem.ev ⟨.added, "alice".data, none, 0⟩)]
        ++ (7, RecvItem.ev ⟨.added, "bob".data, some "i".data, 1⟩) :: [])
      = .ok ⟨.added, "bob".data, some "i".data, 1⟩ :=
  (next_mailbox_event_semantics "bob".data).2.2.2.2.2
    [(10, RecvItem.lag), (5, RecvItem.ev ⟨.added, "alice".data, none, 0⟩)]
    7 ⟨.added, "bob".data, some "i".data, 1⟩ []
    (by decide) (by decide) (by decide)

/-! ## Claim C1 -/

theorem cleanup_length_le (cfg : StoreCfg) (now : Int) (m : Str) :
    ∀ (keys : List Str) (σ : MapM),
      ((Store.cleanup cfg σ keys now) m).length ≤ (σ m).length := by
  intro keys
  induction keys with
  | nil => intro σ; exact Nat.le_refl _
  | cons k keys ih =>
    intro σ
    show ((Store.cleanup cfg
      (Function.update σ k (prune_mailbox (σ k) now cfg.ttl cfg.max_messages)) keys now) m).length ≤ _
    refine (ih _).trans ?_
    by_cases hm : m = k
    · subst hm
      rw [Function.update_same]
      exact (prune_mailbox_sublist _ _ _ _).length_le
    · rw [Function.update_noteq hm]

theorem runOp_length_le (cfg : StoreCfg) (σ : MapM) (op : StoreOp) (m : Str)
    (h : (σ m).length ≤ cfg.max_messages) :
    ((runOp cfg σ op) m).length ≤ cfg.max_messages := by
  cases op with
  | add mailbox message now =>
    unfold runOp Store.add
    dsimp only
    by_cases hm : m = normKey mailbox
    · subst hm; rw [Function.update_same]; exact prune_mailbox_length_le _ _ _ _
    · rw [Function.update_noteq hm]; exact h
  | list mailbox now =>
    unfold runOp Store.list
    dsimp only
    by_cases hm : m = normKey mailbox
    · subst hm; rw [Function.update_same]; exact prune_mailbox_length_le _ _ _ _
    · rw [Function.update_noteq hm]; exact h
  | get mailbox mid now =>
    unfold runOp Store.get
    dsimp only
    by_cases hm : m = normKey mailbox
    · subst hm; rw [Function.update_same]; exact prune_mailbox_length_le _ _ _ _
    · rw [Function.update_noteq hm]; exact h
  | delete mailbox mid now =>
    unfold runOp Store.delete
    dsimp only
    split
    · exact h
    · split
      · exact h
      · dsimp only
        by_cases hm : m = normKey mailbox
        · subst hm
          rw [Function.update_same]
          exact (List.length_filter_le _ _).trans h
        · rw [Function.update_noteq hm]; exact h
  | clear mailbox now =>
    unfold runOp Store.clear
    dsimp only
    by_cases hm : m = normKey mailbox
    · subst hm; rw [Function.update_same]; exact Nat.zero_le _
    · rw [Function.update_noteq hm]; exact h
  | cleanup keys now =>
    unfold runOp
    exact (cleanup_length_le cfg now m keys σ).trans h

theorem execOps_length_le (cfg : StoreCfg) : ∀ (ops : List StoreOp) (σ : MapM),
    (∀ m, (σ m).length ≤ cfg.max_messages) →
    ∀ m, ((execOps cfg σ ops) m).length ≤ cfg.max_messages := by
  intro ops
  induction ops with
  | nil => intro σ h m; exact h m
  | cons op ops ih =>
    intro σ h m
    exact ih (runOp cfg σ op) (fun m' => runOp_length_le cfg σ op m' (h m')) m

/-- C1 (amended): starting from the empty store, after any sequence of
store operations no bucket holds more than `max_messages` messages (so
`|list(m)| ≤ max_messages`); and at the moment of any pruning read or
write — `add`, `list`, `get` (and `cleanup_expired`) — the touched
bucket retains no message with `received_at < now − ttl`.  (`delete`
and `clear` do not prune; see the counterexample.) -/
theorem store_bounds (cfg : StoreCfg) :
    (∀ ops m, ((execOps cfg emptyMap ops) m).length ≤ cfg.max_messages)
    ∧ (∀ σ mb now, ((Store.list cfg σ mb now).2).length ≤ cfg.max_messages)
    ∧ (∀ b now x, x ∈ prune_mailbox b now cfg.ttl cfg.max_messages →
        now - cfg.ttl ≤ x.received_at)
    ∧ (∀ σ mb message now x,
        x ∈ (Store.add cfg σ mb message now).1 (normKey mb) →
        now - cfg.ttl ≤ x.received_at)
    ∧ (∀ σ mb now x,
        x ∈ (Store.list cfg σ mb now).1 (normKey mb) → now - cfg.ttl ≤ x.received_at)
    ∧ (∀ σ mb mid now x,
        x ∈ (Store.get cfg σ mb mid now).1 (normKey mb) →
        now - cfg.ttl ≤ x.received_at) := by
  refine ⟨?_, ?_, ?_, ?_, ?_, ?_⟩
  · intro ops m
    exact execOps_length_le cfg ops emptyMap (fun _ => Nat.zero_le _) m
  · intro σ mb now
    show ((prune_mailbox (σ (normKey mb)) now cfg.ttl cfg.max_messages).reverse).length ≤ _
    rw [List.length_reverse]
    exact prune_mailbox_length_le _ _ _ _
  · intro b now x hx
    exact (mem_prune_mailbox _ _ _ _ _ hx).2
  · intro σ mb message now x hx
    unfold Store.add at hx
    dsimp only at hx
    rw [Function.update_same] at hx
    exact (mem_prune_mailbox _ _ _ _ _ hx).2
  · intro σ mb now x hx
    unfold Store.list at hx
    dsimp only at hx
    rw [Function.update_same] at hx
    exact (mem_prune_mailbox _ _ _ _ _ hx).2
  · intro σ mb mid now x hx
    unfold Store.get at hx
    dsimp only at hx
    rw [Function.update_same] at hx
    exact (mem_prune_mailbox _ _ _ _ _ hx).2

/-- C1 counterexample: `delete` is a write of the bucket but does not
prune, so immediately after a successful delete at `now = 1000` (ttl
60) the bucket still retains a message with `received_at = 100
< now − ttl`. -/
theorem store_bounds_cex :
    (Store.delete (execOps ⟨10, 60⟩ emptyMap
        [.add "m".data ⟨"a".data, "m".data, 100, 100⟩ 100,
         .add "m".data ⟨"b".data, "m".data, 110, 110⟩ 110])
      "m".data "b".data 1000).2.1 = true
    ∧ (Store.delete (execOps ⟨10, 60⟩ emptyMap
        [.add "m".data ⟨"a".data, "m".data, 100, 100⟩ 100,
         .add "m".data ⟨"b".data, "m".data, 110, 110⟩ 110])
      "m".data "b".data 1000).1 "m".data = [⟨"a".data, "m".data, 100, 100⟩]
    ∧ (⟨"a".data, "m".data, 100, 100⟩ : Msg).received_at < 1000 - 60 :=
  ⟨by decide, by decide, by decide⟩

/-- Witness for `store_bounds` on a one-add run. -/
theorem store_bounds_witness :
    ((execOps ⟨2, 60⟩ emptyMap [StoreOp.add "m".data ⟨"a".data, "m".data, 1, 1⟩ 1])
      "m".data).length ≤ 2
    ∧ (1 : Int) - 60 ≤ (⟨"a".data, "m".data, 1, 1⟩ : Msg).received_at :=
  ⟨(store_bounds ⟨2, 60⟩).1 _ _,
   (store_bounds ⟨2, 60⟩).2.2.2.1 emptyMap "m".data ⟨"a".data, "m".data, 1, 1⟩ 1
     ⟨"a".data, "m".data, 1, 1⟩ (by decide)⟩

/-! ## Claim C2 -/

/-- The wall-clock instant at which an operation runs. -/
def opNow : StoreOp → Int
  | .add _ _ now => now
  | .list _ now => now
  | .get _ _ now => now
  | .delete _ _ now => now
  | .clear _ now => now
  | .cleanup _ now => now

/-- An `add` is clock-consistent when the message carries no
`received_at` (0, to be assigned by the store) or carries exactly the
ingest instant — the only shape the SMTP receiver produces
(`src/smtp_server.rs:158`, `received_at: now`). -/
def addOk : StoreOp → Bool
  | .add _ message now => message.received_at == 0 || message.received_at == now
  | _ => true

/-- A clock-consistent trace: operation times never decrease (starting
from `t`) and every `add` is clock-consistent. -/
def chronoOps : Int → List StoreOp → Bool
  | _, [] => true
  | t, op :: rest => decide (t ≤ opNow op) && addOk op && chronoOps (opNow op) rest

/-- The clock value after a trace. -/
def endNow : Int → List StoreOp → Int
  | t, [] => t
  | _, op :: rest => endNow (opNow op) rest

/-- The messages ingested into bucket `mb` by a trace, in ingest order,
after the normalization `add` applies. -/
def ingest (mb : Str) : List StoreOp → List Msg
  | [] => []
  | .add mailbox message now :: rest =>
    (if normKey mailbox = mb then [admitMsg message (normKey mailbox) now] else [])
      ++ ingest mb rest
  | _ :: rest => ingest mb rest

/-- Store invariant: every bucket is nondecreasing in `received_at` and
bounded by the current clock `t`. -/
def InvS (σ : MapM) (t : Int) : Prop :=
  ∀ mb, ((σ mb).Pairwise (fun a b => a.received_at ≤ b.received_at))
    ∧ ∀ x ∈ σ mb, x.received_at ≤ t

theorem update_prune_sublist (σ : MapM) (k : Str) (now ttl : Int) (mm : Nat) (mb : Str) :
    List.Sublist ((Function.update σ k (prune_mailbox (σ k) now ttl mm)) mb) (σ mb) := by
  by_cases hm : mb = k
  · subst hm
    rw [Function.update_same]
    exact prune_mailbox_sublist _ _ _ _
  · rw [Function.update_noteq hm]

theorem list_state_sublist (cfg : StoreCfg) (σ : MapM) (mailbox : Str) (now : Int) (mb : Str) :
    List.Sublist ((Store.list cfg σ mailbox now).1 mb) (σ mb) := by
  unfold Store.list
  exact update_prune_sublist σ (normKey mailbox) now cfg.ttl cfg.max_messages mb

theorem get_state_sublist (cfg : StoreCfg) (σ : MapM) (mailbox mid : Str) (now : Int) (mb : Str) :
    List.Sublist ((Store.get cfg σ mailbox mid now).1 mb) (σ mb) := by
  unfold Store.get
  exact update_prune_sublist σ (normKey mailbox) now cfg.ttl cfg.max_messages mb

theorem delete_state_sublist (σ : MapM) (mailbox mid : Str) (now : Int) (mb : Str) :
    List.Sublist ((Store.delete σ mailbox mid now).1 mb) (σ mb) := by
  unfold Store.delete
  dsimp only
  split
  · exact List.Sublist.refl _
  · split
    · exact List.Sublist.refl _
    · dsimp only
      by_cases hm : mb = normKey mailbox
      · subst hm
        rw [Function.update_same]
        exact List.filter_sublist _
      · rw [Function.update_noteq hm]

theorem clear_state_sublist (σ : MapM) (mailbox : Str) (now : Int) (mb : Str) :
    List.Sublist ((Store.clear σ mailbox now).1 mb) (σ mb) := by
  unfold Store.clear
  dsimp only
  by_cases hm : mb = normKey mailbox
  · subst hm
    rw [Function.update_same]
    exact List.nil_sublist _
  · rw [Function.update_noteq hm]

theorem cleanup_state_sublist (cfg : StoreCfg) (now : Int) (mb : Str) :
    ∀ (keys : List Str) (σ : MapM),
      List.Sublist ((Store.cleanup cfg σ keys now) mb) (σ mb) := by
  intro keys
  induction keys with
  | nil => intro σ; exact List.Sublist.refl _
  | cons k keys ih =>
    intro σ
    show List.Sublist ((Store.cleanup cfg
      (Function.update σ k (prune_mailbox (σ k) now cfg.ttl cfg.max_messages)) keys now) mb) _
    exact (ih _).trans (update_prune_sublist σ k now cfg.ttl cfg.max_messages mb)

theorem admitMsg_received (message : Msg) (mb : Str) (now : Int)
    (h : message.received_at = 0 ∨ message.received_at = now) :
    (admitMsg message mb now).received_at = now := by
  unfold admitMsg
  rcases h with h | h
  · rw [if_pos h]
    dsimp only
    split <;> split <;> rfl
  · by_cases h0 : message.received_at = 0
    · rw [if_pos h0]
      dsimp only
      split <;> split <;> rfl
    · rw [if_neg h0]
      dsimp only
      split <;> split <;> exact h

theorem InvS_mono_sublist (σ σ' : MapM) (t t' : Int)
    (hσ : InvS σ t) (htt : t ≤ t') (hsub : ∀ mb, List.Sublist (σ' mb) (σ mb)) :
    InvS σ' t' := fun mb =>
  ⟨(hσ mb).1.sublist (hsub mb),
   fun x hx => le_trans ((hσ mb).2 x ((hsub mb).mem hx)) htt⟩

theorem runOp_inv (cfg : StoreCfg) (σ : MapM) (op : StoreOp) (t : Int)
    (hσ : InvS σ t) (hok : addOk op = true) (ht : t ≤ opNow op) :
    InvS (runOp cfg σ op) (opNow op) := by
  cases op with
  | add mailbox message now =>
    intro mb
    unfold runOp Store.add
    dsimp only
    have hnow : t ≤ now := ht
    have hrecv : (admitMsg message (normKey mailbox) now).received_at = now := by
      apply admitMsg_received
      simpa [addOk] using hok
    by_cases hm : mb = normKey mailbox
    · subst hm
      rw [Function.update_same]
      constructor
      · refine List.Pairwise.sublist (prune_mailbox_sublist _ _ _ _) ?_
        refine List.pairwise_append.2 ⟨(hσ _).1, List.pairwise_singleton _ _, ?_⟩
        intro a ha b hb
        rw [List.mem_singleton] at hb
        subst hb
        rw [hrecv]
        exact le_trans ((hσ _).2 a ha) hnow
      · intro x hx
        have hx' := (mem_prune_mailbox _ _ _ _ _ hx).1
        rcases List.mem_append.1 hx' with hx1 | hx1
        · exact le_trans ((hσ _).2 x hx1) hnow
        · rw [List.mem_singleton] at hx1
          rw [hx1, hrecv]
          exact le_refl now
    · rw [Function.update_noteq hm]
      exact ⟨(hσ mb).1, fun x hx => le_trans ((hσ mb).2 x hx) hnow⟩
  | list mailbox now =>
    exact InvS_mono_sublist σ _ t now hσ ht (list_state_sublist cfg σ mailbox now)
  | get mailbox mid now =>
    exact InvS_mono_sublist σ _ t now hσ ht (get_state_sublist cfg σ mailbox mid now)
  | delete mailbox mid now =>
    exact InvS_mono_sublist σ _ t now hσ ht (delete_state_sublist σ mailbox mid now)
  | clear mailbox now =>
    exact InvS_mono_sublist σ _ t now hσ ht (clear_state_sublist σ mailbox now)
  | cleanup keys now =>
    exact InvS_mono_sublist σ _ t now hσ ht
      (fun mb => cleanup_state_sublist cfg now mb keys σ)

theorem execOps_inv (cfg : StoreCfg) : ∀ (ops : List StoreOp) (σ : MapM) (t : Int),
    InvS σ t → chronoOps t ops = true →
    InvS (execOps cfg σ ops) (endNow t ops) := by
  intro ops
  induction ops with
  | nil => intro σ t h _; exact h
  | cons op ops ih =>
    intro σ t h hc
    simp only [chronoOps, Bool.and_eq_true, decide_eq_true_eq] at hc
    obtain ⟨⟨hle, hok⟩, hrest⟩ := hc
    exact ih (runOp cfg σ op) (opNow op) (runOp_inv cfg σ op t h hok hle) hrest

theorem execOps_ingest (cfg : StoreCfg) : ∀ (ops : List StoreOp) (σ : MapM) (mb : Str),
    List.Sublist ((execOps cfg σ ops) mb) (σ mb ++ ingest mb ops) := by
  intro ops
  induction ops with
  | nil =>
    intro σ mb
    show List.Sublist (σ mb) (σ mb ++ ingest mb [])
    rw [show ingest mb [] = [] from rfl, List.append_nil]
  | cons op ops ih =>
    intro σ mb
    show List.Sublist ((execOps cfg (runOp cfg σ op) ops) mb) _
    cases op with
    | add mailbox message now =>
      show List.Sublist _ (σ mb ++
        ((if normKey mailbox = mb then [admitMsg message (normKey mailbox) now] else [])
          ++ ingest mb ops))
      by_cases hm : normKey mailbox = mb
      · subst hm
        rw [if_pos rfl]
        have h2 : (runOp cfg σ (.add mailbox message now)) (normKey mailbox)
            = prune_mailbox (σ (normKey mailbox)
                ++ [admitMsg message (normKey mailbox) now]) now cfg.ttl cfg.max_messages := by
          unfold runOp Store.add
          dsimp only
          rw [Function.update_same]
        have h1 := ih (runOp cfg σ (.add mailbox message now)) (normKey mailbox)
        rw [h2] at h1
        refine h1.trans ?_
        rw [← List.append_assoc]
        exact List.Sublist.append (prune_mailbox_sublist _ _ _ _) (List.Sublist.refl _)
      · rw [if_neg hm, List.nil_append]
        have h2 : (runOp cfg σ (.add mailbox message now)) mb = σ mb := by
          unfold runOp Store.add
          dsimp only
          rw [Function.update_noteq (fun hh => hm hh.symm)]
        have h1 := ih (runOp cfg σ (.add mailbox message now)) mb
        rw [h2] at h1
        exact h1
    | list mailbox now =>
      refine (ih _ mb).trans ?_
      exact List.Sublist.append (list_state_sublist cfg σ mailbox now mb) (List.Sublist.refl _)
    | get mailbox mid now =>
      refine (ih _ mb).trans ?_
      exact List.Sublist.append (get_state_sublist cfg σ mailbox mid now mb) (List.Sublist.refl _)
    | delete mailbox mid now =>
      refine (ih _ mb).trans ?_
      exact List.Sublist.append (delete_state_sublist σ mailbox mid now mb) (List.Sublist.refl _)
    | clear mailbox now =>
      refine (ih _ mb).trans ?_
      exact List.Sublist.append (clear_state_sublist σ mailbox now mb) (List.Sublist.refl _)
    | cleanup keys now =>
      refine (ih _ mb).trans ?_
      exact List.Sublist.append (cleanup_state_sublist cfg now mb keys σ) (List.Sublist.refl _)

/-- C2 (amended): over any clock-consistent trace (operation times
nondecreasing, every `add` carrying `received_at` 0 or equal to its
ingest instant — the only shape the program produces), the bucket is a
subsequence of the ingest sequence (stored in ingest order, oldest
first), and `list` returns it newest-first: nonincreasing in
`received_at`, with the reversal of the returned list again a
subsequence of the ingest sequence (so ties are broken by append order,
latest appended first). -/
theorem list_newest_first (cfg : StoreCfg) (ops : List StoreOp) (t0 : Int)
    (mb : Str) (now : Int) (hops : chronoOps t0 ops = true) :
    List.Sublist ((execOps cfg emptyMap ops) (normKey mb)) (ingest (normKey mb) ops)
    ∧ ((Store.list cfg (execOps cfg emptyMap ops) mb now).2).Pairwise
        (fun a b => b.received_at ≤ a.received_at)
    ∧ List.Sublist ((Store.list cfg (execOps cfg emptyMap ops) mb now).2).reverse
        (ingest (normKey mb) ops) := by
  have hsub : List.Sublist ((execOps cfg emptyMap ops) (normKey mb))
      (ingest (normKey mb) ops) := by
    have := execOps_ingest cfg ops emptyMap (normKey mb)
    simpa [emptyMap] using this
  have hinv := execOps_inv cfg ops emptyMap t0
    (fun _ => ⟨List.Pairwise.nil, fun x hx => absurd hx (List.not_mem_nil x)⟩) hops
  have hpair : ((execOps cfg emptyMap ops) (normKey mb)).Pairwise
      (fun a b => a.received_at ≤ b.received_at) := (hinv (normKey mb)).1
  have hlist2 : (Store.list cfg (execOps cfg emptyMap ops) mb now).2
      = (prune_mailbox ((execOps cfg emptyMap ops) (normKey mb))
          now cfg.ttl cfg.max_messages).reverse := rfl
  refine ⟨hsub, ?_, ?_⟩
  · rw [hlist2]
    rw [List.pairwise_reverse]
    exact hpair.sublist (prune_mailbox_sublist _ _ _ _)
  · rw [hlist2, List.reverse_reverse]
    exact (prune_mailbox_sublist _ _ _ _).trans hsub

/-- C2 counterexample: `add` keeps a caller-supplied non-zero
`received_at`, so adding a message stamped 50 and then one stamped 10
makes `list` return them in increasing `received_at` order — not
strictly decreasing. -/
theorem list_newest_first_cex :
    (Store.list ⟨10, 1000000⟩ (execOps ⟨10, 1000000⟩ emptyMap
        [.add "m".data ⟨"a".data, "m".data, 50, 50⟩ 100,
         .add "m".data ⟨"b".data, "m".data, 10, 10⟩ 101]) "m".data 101).2
      = [⟨"b".data, "m".data, 10, 10⟩, ⟨"a".data, "m".data, 50, 50⟩]
    ∧ (10 : Int) < 50 :=
  ⟨by decide, by decide⟩

/-- Witness for `list_newest_first` on a two-add clock-consistent
trace. -/
theorem list_newest_first_witness :
    List.Sublist ((execOps ⟨10, 1000⟩ emptyMap
        [StoreOp.add "m".data ⟨"a".data, "m".data, 0, 0⟩ 5,
         StoreOp.add "m".data ⟨"b".data, "m".data, 0, 0⟩ 7]) (normKey "m".data))
      (ingest (normKey "m".data)
        [StoreOp.add "m".data ⟨"a".data, "m".data, 0, 0⟩ 5,
         StoreOp.add "m".data ⟨"b".data, "m".data, 0, 0⟩ 7])
    ∧ ((Store.list ⟨10, 1000⟩ (execOps ⟨10, 1000⟩ emptyMap
        [StoreOp.add "m".data ⟨"a".data, "m".data, 0, 0⟩ 5,
         StoreOp.add "m".data ⟨"b".data, "m".data, 0, 0⟩ 7]) "m".data 8).2).Pairwise
        (fun a b => b.received_at ≤ a.received_at)
    ∧ List.Sublist ((Store.list ⟨10, 1000⟩ (execOps ⟨10, 1000⟩ emptyMap
        [StoreOp.add "m".data ⟨"a".data, "m".data, 0, 0⟩ 5,
         StoreOp.add "m".data ⟨"b".data, "m".data, 0, 0⟩ 7]) "m".data 8).2).reverse
      (ingest (normKey "m".data)
        [StoreOp.add "m".data ⟨"a".data, "m".data, 0, 0⟩ 5,
         StoreOp.add "m".data ⟨"b".data, "m".data, 0, 0⟩ 7]) :=
  list_newest_first ⟨10, 1000⟩
    [StoreOp.add "m".data ⟨"a".data, "m".data, 0, 0⟩ 5,
     StoreOp.add "m".data ⟨"b".data, "m".data, 0, 0⟩ 7]
    0 "m".data 8 (by decide)
